import Mathlib

/-!
# Verification of the content-aware image compression core

A shallow embedding, in Lean 4, of the compression engine of the
content-aware image compression repository:

* `Utils.HSLAPixel`, `Utils.PNG` — the pixel grid (`PNG.cpp`, `HSLAPixel.cpp`);
* `Utils.RGBColor`, `Utils.HSLAColor`, `Utils.rgbToHsla`, `Utils.hslaToRgb`
  — the color conversions (`ColorConversion.cpp`);
* `ImageStatistics` — the integral (summed-area) statistics structure
  (`src/statistics/ImageStatistics.cpp`, flat-array implementation) and the
  older nested-vector variant of the same file;
* `AdaptiveImageTree` — the entropy-driven binary partition tree
  (`src/core/AdaptiveImageTree.cpp`);
* `ImageCompressor` — the quality-to-parameters mapping (`ImageCompressor.cpp`).

Machine `double` arithmetic is idealized as exact arithmetic: values that the
program only adds, subtracts, multiplies, divides and compares are embedded
into `ℚ`, while quantities flowing through `log₂`, `cos`/`sin`, `atan2`,
`sqrt` or `pow` are embedded into `ℝ`.  `std::numeric_limits<double>::max()`,
used by the split search only as an initial "worse than everything" score, is
embedded as `⊤ : EReal`.

The theorems at the end of the file check the specified properties of these
functions.
-/

namespace ImageCompression

/-! ## Pixel data (HSLAPixel.h)

An HSLA pixel: four `double` fields, embedded as exact rationals. -/

structure HSLAPixel where
  hue : ℚ
  saturation : ℚ
  luminance : ℚ
  alpha : ℚ
deriving DecidableEq

namespace Utils

/-! ## Pixel grid (PNG.cpp)

`PNG` holds `width_`, `height_` (C++ `unsigned int`, embedded as `ℕ`) and a
row-major pixel array `imageData_` of `width_ * height_` pixels, embedded as a
total function from flat indices; indices `≥ width_ * height_` are modelling
slack and are never reached by bounds-checked access. -/

structure PNG where
  width : ℕ
  height : ℕ
  imageData : ℕ → HSLAPixel

/-- `PNG::isEmpty`: `width_ == 0 || height_ == 0`. -/
def PNG.isEmpty (png : PNG) : Bool :=
  png.width == 0 || png.height == 0

/-- `PNG::isValidCoordinate`: `x < width_ && y < height_ && !isEmpty()`. -/
def PNG.isValidCoordinate (png : PNG) (x y : ℕ) : Bool :=
  decide (x < png.width) && decide (y < png.height) && !png.isEmpty

/-- `PNG::getPixel`: returns `nullptr` (here `none`) when the coordinate is not
valid, and otherwise a pointer to the pixel at flat index `x + y * width_`. -/
def PNG.getPixel (png : PNG) (x y : ℕ) : Option HSLAPixel :=
  if png.isValidCoordinate x y then some (png.imageData (x + y * png.width)) else none

end Utils

namespace Utils

/-! ## Color conversion (ColorConversion.cpp)

`RGBColor` carries four `uint8_t` channels, embedded as `Fin 256`.
`HSLAColor` carries four `double` fields; on the conversion paths every
operation is field arithmetic, so they are embedded as exact rationals. -/

structure RGBColor where
  red : Fin 256
  green : Fin 256
  blue : Fin 256
  alpha : Fin 256
deriving DecidableEq

structure HSLAColor where
  hue : ℚ
  saturation : ℚ
  luminance : ℚ
  alpha : ℚ
deriving DecidableEq

/-- `EPSILON = 1e-10` from the anonymous namespace of `ColorConversion.cpp`. -/
def EPSILON : ℚ := 1e-10

/-- `std::round`: round half away from zero (values on these paths are
nonnegative, where this agrees with every rounding of halves). -/
def cround (x : ℚ) : ℤ :=
  if 0 ≤ x then ⌊x + 1/2⌋ else -⌊-x + 1/2⌋

/-- `static_cast<uint8_t>` of a `double` already rounded to an integer:
reduce modulo 256 (the program only ever casts values in `[0, 255]`). -/
def toU8 (z : ℤ) : Fin 256 :=
  ⟨z.toNat % 256, Nat.mod_lt _ (by norm_num)⟩

/-- `rgbToHsla`: normalize channels to `[0,1]`, compute luminance from
max/min, then saturation and hue (in degrees) unless the pixel is grayscale
(`delta < EPSILON`). -/
def rgbToHsla (rgb : RGBColor) : HSLAColor :=
  let r : ℚ := (rgb.red : ℕ) / 255
  let g : ℚ := (rgb.green : ℕ) / 255
  let b : ℚ := (rgb.blue : ℕ) / 255
  let a : ℚ := (rgb.alpha : ℕ) / 255
  let maxVal := max r (max g b)
  let minVal := min r (min g b)
  let delta := maxVal - minVal
  let luminance := (maxVal + minVal) * 0.5
  if delta < EPSILON then
    ⟨0, 0, luminance, a⟩
  else
    let saturation :=
      if luminance < 0.5 then delta / (maxVal + minVal) else delta / (2 - maxVal - minVal)
    let hue :=
      if maxVal = r then (if g < b then (g - b) / delta + 6 else (g - b) / delta)
      else if maxVal = g then (b - r) / delta + 2
      else (r - g) / delta + 4
    ⟨hue * 60, saturation, luminance, a⟩

/-- `hueToRgb` helper from `ColorConversion.cpp`. -/
def hueToRgb (p q t0 : ℚ) : ℚ :=
  let t1 := if t0 < 0 then t0 + 1 else t0
  let t := if 1 < t1 then t1 - 1 else t1
  if t < 1/6 then p + (q - p) * 6 * t
  else if t < 1/2 then q
  else if t < 2/3 then p + (q - p) * (2/3 - t) * 6
  else p

/-- `hslaToRgb`: grayscale shortcut when `saturation < EPSILON`, otherwise the
standard `p`/`q` reconstruction with channel offsets `+1/3, 0, -1/3`. -/
def hslaToRgb (hsla : HSLAColor) : RGBColor :=
  let alpha8 := toU8 (cround (hsla.alpha * 255))
  if hsla.saturation < EPSILON then
    let gray := toU8 (cround (hsla.luminance * 255))
    ⟨gray, gray, gray, alpha8⟩
  else
    let h := hsla.hue / 360
    let s := hsla.saturation
    let l := hsla.luminance
    let q := if l < 0.5 then l * (1 + s) else l + s - l * s
    let p := 2 * l - q
    ⟨toU8 (cround (hueToRgb p q (h + 1/3) * 255)),
     toU8 (cround (hueToRgb p q h * 255)),
     toU8 (cround (hueToRgb p q (h - 1/3) * 255)),
     alpha8⟩

end Utils

/-! ## Rectangles and integral statistics (ImageStatistics.h / ImageStatistics.cpp) -/

/-- `Rectangle` from `ImageStatistics.h`: inclusive corners, `int` coordinates. -/
structure Rectangle where
  upperLeft : ℤ × ℤ
  lowerRight : ℤ × ℤ
deriving DecidableEq

namespace ImageStatistics

open Utils

/-- `HUE_BINS = 36`. -/
def HUE_BINS : ℕ := 36

/-- In-bounds pixel access used throughout the statistics construction:
`image.getPixel(x, y)` immediately dereferenced (the loops only visit
coordinates with `x < width_`, `y < height_`). -/
def pixelAt (image : PNG) (x y : ℕ) : HSLAPixel :=
  image.imageData (x + y * image.width)

/-- Pixel access at `int` coordinates (valid queries have both `≥ 0`). -/
def pixelAtZ (image : PNG) (x y : ℤ) : HSLAPixel :=
  pixelAt image x.toNat y.toNat

/-- `static_cast<int>` of a `double`: truncation toward zero. -/
def ratTrunc (q : ℚ) : ℤ :=
  q.num.tdiv q.den

/-- `hueBinIndex = min(static_cast<int>(hue / 10.0), HUE_BINS - 1)`. -/
def hueBinIndex (p : HSLAPixel) : ℤ :=
  min (ratTrunc (p.hue / 10)) 35

/-- The common summed-area recurrence of `ImageStatistics::ImageStatistics`:
the cell value is the cell's own contribution plus `left + top - topLeft`
(out-of-bounds neighbors contributing nothing).  The flat-array constructor
applies it to five per-pixel quantities; it is stated once, generically. -/
def cumulativeTable {α : Type} [Add α] [Sub α] (f : ℕ → ℕ → α) : ℕ → ℕ → α
  | 0, 0 => f 0 0
  | x+1, 0 => cumulativeTable f x 0 + f (x+1) 0
  | 0, y+1 => cumulativeTable f 0 y + f 0 (y+1)
  | x+1, y+1 =>
      cumulativeTable f x (y+1) + cumulativeTable f (x+1) y - cumulativeTable f x y
        + f (x+1) (y+1)
termination_by x y => (x, y)

/-- `cumulativeHueHistogram_` of the flat-array `ImageStatistics`: the value
stored for bin `b` at cell `(x, y)` (the per-pixel contribution is `1` exactly
on the pixel's own hue bin). -/
def cumulativeHueHistogram (image : PNG) (b : ℤ) (x y : ℕ) : ℤ :=
  cumulativeTable (fun i j => if hueBinIndex (pixelAt image i j) = b then 1 else 0) x y

/-- `ImageStatistics::buildHueHistogram` (flat-array file), entry for bin `b`:
the four inclusion-exclusion branches on `ulX == 0` / `ulY == 0`. -/
def buildHueHistogramEntry (image : PNG) (region : Rectangle) (b : ℤ) : ℤ :=
  let ulX := region.upperLeft.1
  let ulY := region.upperLeft.2
  let lrX := region.lowerRight.1
  let lrY := region.lowerRight.2
  let H := fun (x y : ℤ) => cumulativeHueHistogram image b x.toNat y.toNat
  if ulX = 0 ∧ ulY = 0 then H lrX lrY
  else if ulX = 0 then H lrX lrY - H lrX (ulY - 1)
  else if ulY = 0 then H lrX lrY - H (ulX - 1) lrY
  else H lrX lrY - H (ulX - 1) lrY - H lrX (ulY - 1) + H (ulX - 1) (ulY - 1)

/-- `ImageStatistics::buildHueHistogram` (flat-array file): the returned
length-36 vector. -/
def buildHueHistogram (image : PNG) (region : Rectangle) : List ℤ :=
  List.ofFn fun b : Fin 36 => buildHueHistogramEntry image region (b : ℕ)

/-- `ImageStatistics::getArea`. -/
def getArea (region : Rectangle) : ℤ :=
  (region.lowerRight.1 - region.upperLeft.1 + 1) *
    (region.lowerRight.2 - region.upperLeft.2 + 1)

/-- `ImageStatistics::isValidRectangle`. -/
def isValidRectangle (image : PNG) (region : Rectangle) : Prop :=
  0 ≤ region.upperLeft.1 ∧ 0 ≤ region.upperLeft.2 ∧
    region.lowerRight.1 < (image.width : ℤ) ∧ region.lowerRight.2 < (image.height : ℤ) ∧
    region.upperLeft.1 ≤ region.lowerRight.1 ∧ region.upperLeft.2 ≤ region.lowerRight.2

instance (image : PNG) (region : Rectangle) : Decidable (isValidRectangle image region) := by
  unfold isValidRectangle; infer_instance

/-- `ImageStatistics::calculateEntropyFromDistribution`: Shannon entropy in
bits of the positive entries, `0` for nonpositive area. -/
noncomputable def calculateEntropyFromDistribution (distribution : List ℤ) (totalArea : ℤ) : ℝ :=
  if totalArea ≤ 0 then 0
  else distribution.foldl
    (fun entropy c =>
      if 0 < c then entropy - ((c : ℝ) / (totalArea : ℝ)) * Real.logb 2 ((c : ℝ) / (totalArea : ℝ))
      else entropy) 0

/-- `ImageStatistics::calculateEntropy` (flat-array file). -/
noncomputable def calculateEntropy (image : PNG) (region : Rectangle) : ℝ :=
  calculateEntropyFromDistribution (buildHueHistogram image region) (getArea region)

/-! ### The nested-vector variant of `ImageStatistics.cpp`

The older implementation in the repository stores
`vector<vector<vector<int>>> cumulativeHueHistogram_` and manipulates whole
per-cell histograms with `addHistograms` / `subtractHistograms`; it is
embedded at the level of `List ℤ` histogram values. -/

/-- `ImageStatistics::addHistograms` (elementwise sum of equal-length vectors). -/
def addHistograms (first second : List ℤ) : List ℤ :=
  List.zipWith (· + ·) first second

/-- `ImageStatistics::subtractHistograms` (elementwise difference). -/
def subtractHistograms (first second : List ℤ) : List ℤ :=
  List.zipWith (· - ·) first second

/-- `currentHistogram[hueBinIndex]++`. -/
def incrementAt : List ℤ → ℕ → List ℤ
  | [], _ => []
  | c :: rest, 0 => (c + 1) :: rest
  | c :: rest, n+1 => c :: incrementAt rest n

/-- `cumulativeHueHistogram_[x][y]` of the nested-vector constructor: the
corner cell sets only the pixel's own bin to `1`; edge cells copy the single
neighbor and increment; interior cells combine `left + top - topLeft` with
vector arithmetic and increment. -/
def cumulativeHueHistogramNested (image : PNG) : ℕ → ℕ → List ℤ
  | 0, 0 => (List.replicate HUE_BINS 0).set (hueBinIndex (pixelAt image 0 0)).toNat 1
  | x+1, 0 =>
      incrementAt (cumulativeHueHistogramNested image x 0)
        (hueBinIndex (pixelAt image (x+1) 0)).toNat
  | 0, y+1 =>
      incrementAt (cumulativeHueHistogramNested image 0 y)
        (hueBinIndex (pixelAt image 0 (y+1))).toNat
  | x+1, y+1 =>
      incrementAt
        (subtractHistograms
          (addHistograms (cumulativeHueHistogramNested image x (y+1))
            (cumulativeHueHistogramNested image (x+1) y))
          (cumulativeHueHistogramNested image x y))
        (hueBinIndex (pixelAt image (x+1) (y+1))).toNat
termination_by x y => (x, y)

/-- `ImageStatistics::buildHueHistogram` of the nested-vector file: the same
four inclusion-exclusion branches, expressed with vector arithmetic. -/
def buildHueHistogramNested (image : PNG) (region : Rectangle) : List ℤ :=
  let ulX := region.upperLeft.1
  let ulY := region.upperLeft.2
  let lrX := region.lowerRight.1
  let lrY := region.lowerRight.2
  let H := fun (x y : ℤ) => cumulativeHueHistogramNested image x.toNat y.toNat
  if ulX = 0 ∧ ulY = 0 then H lrX lrY
  else if ulX = 0 then subtractHistograms (H lrX lrY) (H lrX (ulY - 1))
  else if ulY = 0 then subtractHistograms (H lrX lrY) (H (ulX - 1) lrY)
  else
    addHistograms
      (subtractHistograms (subtractHistograms (H lrX lrY) (H (ulX - 1) lrY)) (H lrX (ulY - 1)))
      (H (ulX - 1) (ulY - 1))

/-- `ImageStatistics::calculateEntropy` of the nested-vector file. -/
noncomputable def calculateEntropyNested (image : PNG) (region : Rectangle) : ℝ :=
  calculateEntropyFromDistribution (buildHueHistogramNested image region) (getArea region)

/-! ### Specification-side direct counts (for comparison with the queries) -/

/-- The hue-bin of a pixel as the specification states it: `min(⌊h/10⌋, 35)`. -/
def specHueBin (p : HSLAPixel) : ℤ :=
  min ⌊p.hue / 10⌋ 35

/-- The set of integer points inside an inclusive rectangle. -/
def rectPoints (region : Rectangle) : Finset (ℤ × ℤ) :=
  Finset.Icc region.upperLeft region.lowerRight

/-- The naive direct count of pixels of `region` falling in hue bin `b`. -/
def directBinCount (image : PNG) (region : Rectangle) (b : ℤ) : ℕ :=
  ((rectPoints region).filter fun pt => specHueBin (pixelAtZ image pt.1 pt.2) = b).card

end ImageStatistics

/-! ## Statistics queries with real-valued results (flat-array file)

`fastCos`/`fastSin` look a truncated, modulo-360 hue up in tables holding
`cos(i·π/180)` / `sin(i·π/180)`; the remaining average-color machinery uses
the same summed-area recurrence and inclusion-exclusion branches as the
histogram. -/

namespace ImageStatistics

open Utils

/-- `fastCos`/`fastSin` table index: `static_cast<int>(hue) % 360`, shifted
into `[0, 360)` when negative (C++ `%` truncates like the cast). -/
def fastTrigIndex (hue : ℚ) : ℕ :=
  (let i := (ratTrunc hue).tmod 360; if i < 0 then i + 360 else i).toNat

/-- `ImageStatistics::fastCos`. -/
noncomputable def fastCos (hue : ℚ) : ℝ :=
  Real.cos ((fastTrigIndex hue : ℝ) * Real.pi / 180)

/-- `ImageStatistics::fastSin`. -/
noncomputable def fastSin (hue : ℚ) : ℝ :=
  Real.sin ((fastTrigIndex hue : ℝ) * Real.pi / 180)

/-- `cumulativeHueX_`: saturation-weighted hue cosines. -/
noncomputable def cumulativeHueX (image : PNG) : ℕ → ℕ → ℝ :=
  cumulativeTable fun i j =>
    ((pixelAt image i j).saturation : ℝ) * fastCos (pixelAt image i j).hue

/-- `cumulativeHueY_`: saturation-weighted hue sines. -/
noncomputable def cumulativeHueY (image : PNG) : ℕ → ℕ → ℝ :=
  cumulativeTable fun i j =>
    ((pixelAt image i j).saturation : ℝ) * fastSin (pixelAt image i j).hue

/-- `cumulativeSaturation_`. -/
noncomputable def cumulativeSaturation (image : PNG) : ℕ → ℕ → ℝ :=
  cumulativeTable fun i j => ((pixelAt image i j).saturation : ℝ)

/-- `cumulativeLuminance_`. -/
noncomputable def cumulativeLuminance (image : PNG) : ℕ → ℕ → ℝ :=
  cumulativeTable fun i j => ((pixelAt image i j).luminance : ℝ)

/-- The four inclusion-exclusion branches of `ImageStatistics::getAverageColor`
applied to one summed-area table. -/
def tableRectSum (t : ℕ → ℕ → ℝ) (region : Rectangle) : ℝ :=
  let ulX := region.upperLeft.1
  let ulY := region.upperLeft.2
  let lrX := region.lowerRight.1
  let lrY := region.lowerRight.2
  let T := fun (x y : ℤ) => t x.toNat y.toNat
  if ulX = 0 ∧ ulY = 0 then T lrX lrY
  else if ulX = 0 then T lrX lrY - T lrX (ulY - 1)
  else if ulY = 0 then T lrX lrY - T (ulX - 1) lrY
  else T lrX lrY - T (ulX - 1) lrY - T lrX (ulY - 1) + T (ulX - 1) (ulY - 1)

/-- `atan2(y, x)` (principal value in `(-π, π]`, `0` at the origin). -/
noncomputable def atan2 (y x : ℝ) : ℝ :=
  Complex.arg ⟨x, y⟩

/-- The HSLA average returned by `getAverageColor`: `double` fields. -/
structure HSLAReal where
  hue : ℝ
  saturation : ℝ
  luminance : ℝ
  alpha : ℝ

/-- `ImageStatistics::getAverageColor` (flat-array file): averages of the four
rectangle sums; the mean hue is recovered with `atan2` and shifted into
`[0, 360)`. -/
noncomputable def getAverageColor (image : PNG) (region : Rectangle) : HSLAReal :=
  let pixelCount : ℝ := (getArea region : ℝ)
  let avgHueX := tableRectSum (cumulativeHueX image) region / pixelCount
  let avgHueY := tableRectSum (cumulativeHueY image) region / pixelCount
  let avgSaturation := tableRectSum (cumulativeSaturation image) region / pixelCount
  let avgLuminance := tableRectSum (cumulativeLuminance image) region / pixelCount
  let avgHue0 := atan2 avgHueY avgHueX * 180 / Real.pi
  let avgHue := if avgHue0 < 0 then avgHue0 + 360 else avgHue0
  ⟨avgHue, avgSaturation, avgLuminance, 1⟩

end ImageStatistics

/-! ## The adaptive partition tree (AdaptiveImageTree.h / AdaptiveImageTree.cpp) -/

/-- `PruningConfig` from `AdaptiveImageTree.h`: two `double` knobs. -/
structure PruningConfig where
  minimumSimilarityPercentage : ℝ
  colorToleranceThreshold : ℝ


namespace AdaptiveImageTree

open ImageStatistics Utils

/-- `AdaptiveImageTree::TreeNode`: a region, its representative color, and two
owning child pointers (`nullptr` = `none`). -/
inductive TreeNode where
  | mk (region : Rectangle) (averageColor : HSLAReal) (leftChild rightChild : Option TreeNode)

/-- Field accessor. -/
def TreeNode.region : TreeNode → Rectangle
  | .mk reg _ _ _ => reg

/-- Field accessor. -/
def TreeNode.averageColor : TreeNode → HSLAReal
  | .mk _ c _ _ => c

/-- A node with two null children is an unsplit region (a leaf). -/
def isLeafNode : TreeNode → Bool
  | .mk _ _ none none => true
  | _ => false

/-- Induction over `TreeNode` through its `Option` children. -/
theorem TreeNode.indOn (motive : TreeNode → Prop)
    (h : ∀ reg c l r, (∀ t, l = some t → motive t) → (∀ t, r = some t → motive t) →
      motive (.mk reg c l r)) : ∀ t, motive t
  | .mk reg c l r =>
    h reg c l r
      (fun t _ => TreeNode.indOn motive h t)
      (fun t _ => TreeNode.indOn motive h t)
termination_by t => sizeOf t
decreasing_by
  · rename_i ht; cases ht; simp; omega
  · rename_i ht; cases ht; simp; omega

/-- `regionWidth` as computed in `findOptimalSplit`. -/
def regionWidth (region : Rectangle) : ℤ :=
  region.lowerRight.1 - region.upperLeft.1 + 1

/-- `regionHeight` as computed in `findOptimalSplit`. -/
def regionHeight (region : Rectangle) : ℤ :=
  region.lowerRight.2 - region.upperLeft.2 + 1

/-- The horizontal cuts tried by `findOptimalSplit`:
`splitY` ascending over `[ulY, lrY)`, each yielding a top/bottom pair. -/
def horizontalCandidates (region : Rectangle) : List (Rectangle × Rectangle) :=
  (List.range (region.lowerRight.2 - region.upperLeft.2).toNat).map fun (i : ℕ) =>
    (⟨region.upperLeft, (region.lowerRight.1, region.upperLeft.2 + (i : ℤ))⟩,
     ⟨(region.upperLeft.1, region.upperLeft.2 + (i : ℤ) + 1), region.lowerRight⟩)

/-- The vertical cuts tried by `findOptimalSplit`:
`splitX` ascending over `[ulX, lrX)`, each yielding a left/right pair. -/
def verticalCandidates (region : Rectangle) : List (Rectangle × Rectangle) :=
  (List.range (region.lowerRight.1 - region.upperLeft.1).toNat).map fun (i : ℕ) =>
    (⟨region.upperLeft, (region.upperLeft.1 + (i : ℤ), region.lowerRight.2)⟩,
     ⟨(region.upperLeft.1 + (i : ℤ) + 1, region.upperLeft.2), region.lowerRight⟩)

/-- The cuts examined by `findOptimalSplit`, in iteration order: horizontal
cuts first (only when `regionHeight > 1`), then vertical cuts (only when
`regionWidth > 1`). -/
def splitCandidates (region : Rectangle) : List (Rectangle × Rectangle) :=
  (if 1 < regionHeight region then horizontalCandidates region else []) ++
    (if 1 < regionWidth region then verticalCandidates region else [])

/-- The score of one cut: `(E₁·A₁ + E₂·A₂) / totalArea`. -/
noncomputable def weightedEntropy (image : PNG) (region : Rectangle)
    (c : Rectangle × Rectangle) : ℝ :=
  (calculateEntropy image c.1 * (getArea c.1 : ℝ) +
      calculateEntropy image c.2 * (getArea c.2 : ℝ)) / (getArea region : ℝ)

/-- The placeholder regions `bestLeftRegion`/`bestRightRegion` are initialized
to `Rectangle(0, 0, 0, 0)`. -/
def dummySplit : Rectangle × Rectangle :=
  (⟨(0, 0), (0, 0)⟩, ⟨(0, 0), (0, 0)⟩)

/-- `AdaptiveImageTree::findOptimalSplit`: sweep the candidate cuts keeping
the strictly best weighted entropy seen so far; the initial best score
`std::numeric_limits<double>::max()` is embedded as `⊤`. -/
noncomputable def findOptimalSplit (image : PNG) (region : Rectangle) :
    Rectangle × Rectangle :=
  (List.foldl
    (fun best c =>
      if (weightedEntropy image region c : EReal) < best.1
      then ((weightedEntropy image region c : EReal), c)
      else best)
    ((⊤ : EReal), dummySplit) (splitCandidates region)).2

/-- Termination measure for the build recursion. -/
def mu (region : Rectangle) : ℕ :=
  (region.lowerRight.1 - region.upperLeft.1).toNat +
    (region.lowerRight.2 - region.upperLeft.2).toNat +
    (if region.upperLeft = region.lowerRight then 0 else 1)

theorem foldl_best_snd_cases {α β : Type} (W : β → α → EReal) (l : List β) :
    ∀ (w : EReal) (p : α) (f : β → α),
      (List.foldl (fun best c => if W c best.2 < best.1 then (W c (f c), f c) else best)
            (w, p) l).2 = p ∨
        (List.foldl (fun best c => if W c best.2 < best.1 then (W c (f c), f c) else best)
              (w, p) l).2 ∈ l.map f := by
  induction l with
  | nil => intro w p f; left; rfl
  | cons c l ih =>
    intro w p f
    simp only [List.foldl_cons]
    by_cases h : W c p < w
    · rw [if_pos h]
      rcases ih (W c (f c)) (f c) f with h' | h'
      · right
        simp only [List.map_cons, List.mem_cons]
        exact Or.inl h'
      · right
        simp only [List.map_cons, List.mem_cons]
        exact Or.inr h'
    · rw [if_neg h]
      rcases ih w p f with h' | h'
      · exact Or.inl h'
      · right
        simp only [List.map_cons, List.mem_cons]
        exact Or.inr h'

theorem findOptimalSplit_cases (image : PNG) (region : Rectangle) :
    findOptimalSplit image region = dummySplit ∨
      findOptimalSplit image region ∈ splitCandidates region := by
  have h := foldl_best_snd_cases (fun c (_ : Rectangle × Rectangle) =>
      ((weightedEntropy image region c : ℝ) : EReal))
    (splitCandidates region) ⊤ dummySplit id
  simpa [findOptimalSplit] using h

theorem mu_lt_of_mem_horizontal {region : Rectangle} {c : Rectangle × Rectangle}
    (h : c ∈ horizontalCandidates region) : mu c.1 < mu region ∧ mu c.2 < mu region := by
  obtain ⟨⟨ax, ay⟩, bx, by'⟩ := region
  simp only [horizontalCandidates, List.mem_map] at h
  obtain ⟨i, hi, hc⟩ := h
  rw [List.mem_range] at hi
  subst hc
  constructor <;>
    · simp only [mu]
      split_ifs <;> simp only [Prod.mk.injEq] at * <;> omega

theorem mu_lt_of_mem_vertical {region : Rectangle} {c : Rectangle × Rectangle}
    (h : c ∈ verticalCandidates region) : mu c.1 < mu region ∧ mu c.2 < mu region := by
  obtain ⟨⟨ax, ay⟩, bx, by'⟩ := region
  simp only [verticalCandidates, List.mem_map] at h
  obtain ⟨i, hi, hc⟩ := h
  rw [List.mem_range] at hi
  subst hc
  constructor <;>
    · simp only [mu]
      split_ifs <;> simp only [Prod.mk.injEq] at * <;> omega

theorem mu_lt_of_mem_splitCandidates {region : Rectangle} {c : Rectangle × Rectangle}
    (h : c ∈ splitCandidates region) : mu c.1 < mu region ∧ mu c.2 < mu region := by
  have h' : c ∈ horizontalCandidates region ∨ c ∈ verticalCandidates region := by
    rcases List.mem_append.mp h with hm | hm
    · left
      revert hm
      split <;> intro hm
      · exact hm
      · simp at hm
    · right
      revert hm
      split <;> intro hm
      · exact hm
      · simp at hm
  rcases h' with h' | h'
  · exact mu_lt_of_mem_horizontal h'
  · exact mu_lt_of_mem_vertical h'

theorem mu_findOptimalSplit {image : PNG} {region : Rectangle}
    (h : region.upperLeft ≠ region.lowerRight) :
    mu (findOptimalSplit image region).1 < mu region ∧
      mu (findOptimalSplit image region).2 < mu region := by
  rcases findOptimalSplit_cases image region with heq | hmem
  · rw [heq]
    simp [mu, dummySplit, h]
  · exact mu_lt_of_mem_splitCandidates hmem

/-- `AdaptiveImageTree::buildTreeRecursive`: make a node carrying the region's
average color; stop when the region is a single pixel, otherwise split
optimally and recurse into both halves. -/
noncomputable def buildTreeRecursive (image : PNG) (region : Rectangle) : TreeNode :=
  if region.upperLeft = region.lowerRight then
    .mk region (getAverageColor image region) none none
  else
    .mk region (getAverageColor image region)
      (some (buildTreeRecursive image (findOptimalSplit image region).1))
      (some (buildTreeRecursive image (findOptimalSplit image region).2))
termination_by mu region
decreasing_by
  · exact (mu_findOptimalSplit (by assumption)).1
  · exact (mu_findOptimalSplit (by assumption)).2

/-- The `AdaptiveImageTree` constructor: build from the root rectangle
`(0, 0, width-1, height-1)`. -/
noncomputable def buildAdaptiveTree (image : PNG) : TreeNode :=
  buildTreeRecursive image ⟨(0, 0), ((image.width : ℤ) - 1, (image.height : ℤ) - 1)⟩

/-- `AdaptiveImageTree::countLeafNodesRecursive` (null pointer counts 0). -/
def countLeafNodesRecursive : Option TreeNode → ℕ
  | none => 0
  | some (.mk _ _ none none) => 1
  | some (.mk _ _ l r) => countLeafNodesRecursive l + countLeafNodesRecursive r

/-- `AdaptiveImageTree::calculateColorDistance`: wrap-around hue difference
scaled by 180, Euclidean with the saturation and luminance differences. -/
noncomputable def calculateColorDistance (color1 color2 : HSLAReal) : ℝ :=
  let hueDiff0 := |color1.hue - color2.hue|
  let hueDiff := (if 180 < hueDiff0 then 360 - hueDiff0 else hueDiff0) / 180
  let satDiff := color1.saturation - color2.saturation
  let lumDiff := color1.luminance - color2.luminance
  Real.sqrt (hueDiff * hueDiff + satDiff * satDiff + lumDiff * lumDiff)

/-- `AdaptiveImageTree::countSimilarPixels`: returns the pair
(similar pixel count, total pixel count) accumulated over the subtree's
unsplit regions; an unsplit region contributes its whole area to the similar
count exactly when its stored color is within `tolerance` of the reference. -/
noncomputable def countSimilarPixels (node : Option TreeNode) (referenceColor : HSLAReal)
    (tolerance : ℝ) : ℤ × ℤ :=
  match node with
  | none => (0, 0)
  | some (.mk reg c none none) =>
      (if calculateColorDistance c referenceColor ≤ tolerance then getArea reg else 0,
        getArea reg)
  | some (.mk _ _ l r) =>
      ((countSimilarPixels l referenceColor tolerance).1 +
          (countSimilarPixels r referenceColor tolerance).1,
        (countSimilarPixels l referenceColor tolerance).2 +
          (countSimilarPixels r referenceColor tolerance).2)

/-- `AdaptiveImageTree::shouldPruneSubtree`: false on null or unsplit nodes;
otherwise count similar pixels against the node's own stored average color and
compare the similarity percentage against the configured minimum. -/
noncomputable def shouldPruneSubtree (node : Option TreeNode) (config : PruningConfig) : Prop :=
  match node with
  | none => False
  | some (.mk _ _ none none) => False
  | some (.mk reg c l r) =>
      (countSimilarPixels (some (.mk reg c l r)) c config.colorToleranceThreshold).2 ≠ 0 ∧
        config.minimumSimilarityPercentage ≤
          ((countSimilarPixels (some (.mk reg c l r)) c config.colorToleranceThreshold).1 : ℝ) /
            ((countSimilarPixels (some (.mk reg c l r)) c config.colorToleranceThreshold).2 : ℝ)

open Classical in
/-- `AdaptiveImageTree::pruneNodeRecursive`: post-order; prune both children
first, then drop them when `shouldPruneSubtree` fires on the updated node. -/
noncomputable def pruneNodeRecursive (node : Option TreeNode) (config : PruningConfig) :
    Option TreeNode :=
  match node with
  | none => none
  | some (.mk reg c none none) => some (.mk reg c none none)
  | some (.mk reg c l r) =>
      let l' := pruneNodeRecursive l config
      let r' := pruneNodeRecursive r config
      if shouldPruneSubtree (some (.mk reg c l' r')) config then some (.mk reg c none none)
      else some (.mk reg c l' r')

/-- `AdaptiveImageTree::pruneTree` (the root owned by the tree is not null). -/
noncomputable def pruneTree (root : TreeNode) (config : PruningConfig) : Option TreeNode :=
  pruneNodeRecursive (some root) config

/-- Specification-side view: the unsplit regions of a subtree, in traversal
order, with their stored colors. -/
def leavesOf : Option TreeNode → List (Rectangle × HSLAReal)
  | none => []
  | some (.mk reg c none none) => [(reg, c)]
  | some (.mk _ _ l r) => leavesOf l ++ leavesOf r

/-- Total pixel area of the subtree's leaves. -/
def totalLeafArea (node : Option TreeNode) : ℤ :=
  ((leavesOf node).map fun p => getArea p.1).sum

/-- Pixel area of the subtree's leaves whose stored color is within
`tolerance` (pruning color-distance) of the reference color. -/
noncomputable def similarLeafArea (node : Option TreeNode) (referenceColor : HSLAReal)
    (tolerance : ℝ) : ℤ :=
  ((leavesOf node).map fun p =>
    if calculateColorDistance p.2 referenceColor ≤ tolerance then getArea p.1 else 0).sum

/-- Specification-side view: the set of integer points covered by the subtree
rooted at a (possibly null) node. -/
def optPts : Option TreeNode → Finset (ℤ × ℤ)
  | none => ∅
  | some t => rectPoints t.region

/-- Specification-side view: the union of the points of the subtree's leaf
rectangles. -/
def leafPtsUnion (node : Option TreeNode) : Finset (ℤ × ℤ) :=
  ((leavesOf node).map fun p => rectPoints p.1).foldr (· ∪ ·) ∅

/-- The structural tiling invariant: at every split node, the children's
rectangles are disjoint and their union is exactly the parent's rectangle. -/
def subtreeTiled : Option TreeNode → Prop
  | none => True
  | some (.mk _ _ none none) => True
  | some (.mk reg _ l r) =>
      Disjoint (optPts l) (optPts r) ∧ optPts l ∪ optPts r = rectPoints reg ∧
        subtreeTiled l ∧ subtreeTiled r

/-- A geometrically well-formed rectangle (corners in order). -/
def wfRect (region : Rectangle) : Prop :=
  region.upperLeft.1 ≤ region.lowerRight.1 ∧ region.upperLeft.2 ≤ region.lowerRight.2

end AdaptiveImageTree

/-! ## Quality-to-parameters mapping (ImageCompressor.cpp) -/

namespace ImageCompressor

/-- `ImageCompressor::getConfigForQuality(double)`: clamp the quality score to
`[0, 1]`, then `similarity = 0.85 + 0.145 * pow(q, 1.5)` and
`tolerance = max(0.30 * pow(1 - q, 2.0), 0.005)`. -/
noncomputable def getConfigForQuality (qualityScore : ℝ) : PruningConfig :=
  let q := max 0 (min 1 qualityScore)
  let similarity := 0.85 + 0.145 * q ^ (1.5 : ℝ)
  let tolerance := max (0.30 * (1 - q) ^ (2.0 : ℝ)) 0.005
  ⟨similarity, tolerance⟩

/-- `ImageCompressor::getQualityName(double)`: band thresholds 0.9/0.7/0.3/0.1. -/
noncomputable def getQualityName (qualityScore : ℝ) : String :=
  let q := max 0 (min 1 qualityScore)
  if 0.9 ≤ q then "highest"
  else if 0.7 ≤ q then "high"
  else if 0.3 ≤ q then "medium"
  else if 0.1 ≤ q then "low"
  else "lowest"

end ImageCompressor

/-! ## Supporting lemmas about the tree operations -/

namespace AdaptiveImageTree

open ImageStatistics Utils

theorem one_le_countLeafNodes (t : TreeNode) : 1 ≤ countLeafNodesRecursive (some t) := by
  induction t using TreeNode.indOn with
  | h reg c l r ihl ihr =>
    match l, r with
    | none, none => simp [countLeafNodesRecursive]
    | some lt, r =>
      have h1 := ihl lt rfl
      cases r <;> simp [countLeafNodesRecursive] <;> omega
    | none, some rt =>
      have h1 := ihr rt rfl
      simp [countLeafNodesRecursive]
      omega

theorem countSimilarPixels_eq_leafAreas (node : Option TreeNode) (ref : HSLAReal) (tol : ℝ) :
    countSimilarPixels node ref tol = (similarLeafArea node ref tol, totalLeafArea node) := by
  cases node with
  | none => simp [countSimilarPixels, similarLeafArea, totalLeafArea, leavesOf]
  | some t =>
    induction t using TreeNode.indOn with
    | h reg c l r ihl ihr =>
      match l, r with
      | none, none =>
        simp [countSimilarPixels, similarLeafArea, totalLeafArea, leavesOf]
      | some lt, r =>
        have h1 := ihl lt rfl
        have h2 : countSimilarPixels r ref tol = (similarLeafArea r ref tol, totalLeafArea r) := by
          cases r with
          | none => simp [countSimilarPixels, similarLeafArea, totalLeafArea, leavesOf]
          | some rt => exact ihr rt rfl
        cases r <;>
          simp_all [countSimilarPixels, similarLeafArea, totalLeafArea, leavesOf]
      | none, some rt =>
        have h2 := ihr rt rfl
        have h1 : countSimilarPixels (none : Option TreeNode) ref tol = (0, 0) := by
          simp [countSimilarPixels]
        simp_all [countSimilarPixels, similarLeafArea, totalLeafArea, leavesOf]

theorem leavesOf_ne_nil (t : TreeNode) : leavesOf (some t) ≠ [] := by
  induction t using TreeNode.indOn with
  | h reg c l r ihl ihr =>
    match l, r with
    | none, none => simp [leavesOf]
    | some lt, r =>
      have h1 := ihl lt rfl
      cases r <;> simp_all [leavesOf]
    | none, some rt =>
      have h2 := ihr rt rfl
      simp_all [leavesOf]

theorem totalLeafArea_pos (t : TreeNode)
    (hpos : ∀ p ∈ leavesOf (some t), 0 < ImageStatistics.getArea p.1) :
    0 < totalLeafArea (some t) := by
  have hne := leavesOf_ne_nil t
  rcases hl : leavesOf (some t) with _ | ⟨p, rest⟩
  · exact absurd hl hne
  · have : ∀ q ∈ leavesOf (some t), 0 < ImageStatistics.getArea q.1 := hpos
    rw [hl] at this
    unfold totalLeafArea
    rw [hl]
    simp only [List.map_cons, List.sum_cons]
    have hp : 0 < ImageStatistics.getArea p.1 := this p (by simp)
    have hrest : 0 ≤ (rest.map fun q => ImageStatistics.getArea q.1).sum := by
      apply List.sum_nonneg
      intro a ha
      rcases List.mem_map.mp ha with ⟨q, hq, rfl⟩
      exact le_of_lt (this q (by simp [hq]))
    omega

open Classical in
theorem pruneNodeRecursive_node (reg : Rectangle) (c : HSLAReal) (l r : Option TreeNode)
    (config : PruningConfig) (h : l ≠ none ∨ r ≠ none) :
    pruneNodeRecursive (some (.mk reg c l r)) config =
      if shouldPruneSubtree (some (.mk reg c (pruneNodeRecursive l config)
          (pruneNodeRecursive r config))) config
      then some (.mk reg c none none)
      else some (.mk reg c (pruneNodeRecursive l config) (pruneNodeRecursive r config)) := by
  rcases l with _ | lt <;> rcases r with _ | rt
  · simp at h
  · simp only [pruneNodeRecursive]
  · simp only [pruneNodeRecursive]
  · simp only [pruneNodeRecursive]

theorem pruneNodeRecursive_some (t : TreeNode) (config : PruningConfig) :
    ∃ t', pruneNodeRecursive (some t) config = some t' ∧
      t'.region = t.region ∧ t'.averageColor = t.averageColor := by
  obtain ⟨reg, c, l, r⟩ := t
  by_cases hlr : l = none ∧ r = none
  · obtain ⟨rfl, rfl⟩ := hlr
    exact ⟨.mk reg c none none, by simp [pruneNodeRecursive], rfl, rfl⟩
  · rw [pruneNodeRecursive_node reg c l r config (by tauto)]
    split_ifs with h
    · exact ⟨.mk reg c none none, rfl, rfl, rfl⟩
    · exact ⟨.mk reg c _ _, rfl, rfl, rfl⟩

theorem countLeafNodes_node_eq (reg : Rectangle) (c : HSLAReal) (l r : Option TreeNode)
    (h : l ≠ none ∨ r ≠ none) :
    countLeafNodesRecursive (some (.mk reg c l r)) =
      countLeafNodesRecursive l + countLeafNodesRecursive r := by
  rcases l with _ | lt <;> rcases r with _ | rt
  · simp at h
  · simp [countLeafNodesRecursive]
  · simp [countLeafNodesRecursive]
  · simp [countLeafNodesRecursive]

theorem countLeafNodes_pruneNode_le (node : Option TreeNode) (config : PruningConfig) :
    countLeafNodesRecursive (pruneNodeRecursive node config) ≤ countLeafNodesRecursive node := by
  cases node with
  | none => simp [pruneNodeRecursive]
  | some t =>
    induction t using TreeNode.indOn with
    | h reg c l r ihl ihr =>
      have hl : countLeafNodesRecursive (pruneNodeRecursive l config) ≤
          countLeafNodesRecursive l := by
        cases l with
        | none => simp [pruneNodeRecursive]
        | some lt => exact ihl lt rfl
      have hr : countLeafNodesRecursive (pruneNodeRecursive r config) ≤
          countLeafNodesRecursive r := by
        cases r with
        | none => simp [pruneNodeRecursive]
        | some rt => exact ihr rt rfl
      by_cases hlr : l = none ∧ r = none
      · obtain ⟨rfl, rfl⟩ := hlr
        simp [pruneNodeRecursive]
      · have hone : 1 ≤ countLeafNodesRecursive l + countLeafNodesRecursive r := by
          rcases l with _ | lt <;> rcases r with _ | rt
          · simp at hlr
          · have := one_le_countLeafNodes rt; omega
          · have := one_le_countLeafNodes lt; omega
          · have := one_le_countLeafNodes lt; omega
        have hne : l ≠ none ∨ r ≠ none := by tauto
        have hne' : pruneNodeRecursive l config ≠ none ∨ pruneNodeRecursive r config ≠ none := by
          rcases hne with hne | hne
          · rcases l with _ | lt
            · simp at hne
            · obtain ⟨lt', hlt', -, -⟩ := pruneNodeRecursive_some lt config
              rw [hlt']
              simp
          · rcases r with _ | rt
            · simp at hne
            · obtain ⟨rt', hrt', -, -⟩ := pruneNodeRecursive_some rt config
              rw [hrt']
              simp
        rw [pruneNodeRecursive_node reg c l r config hne,
          countLeafNodes_node_eq reg c l r hne]
        split_ifs with h
        · have : countLeafNodesRecursive (some (TreeNode.mk reg c none none)) = 1 := by
            simp [countLeafNodesRecursive]
          omega
        · rw [countLeafNodes_node_eq reg c _ _ hne']
          omega

theorem shouldPruneSubtree_node (reg : Rectangle) (c : HSLAReal) (l r : Option TreeNode)
    (config : PruningConfig) (h : l ≠ none ∨ r ≠ none) :
    shouldPruneSubtree (some (.mk reg c l r)) config ↔
      totalLeafArea (some (.mk reg c l r)) ≠ 0 ∧
        config.minimumSimilarityPercentage ≤
          (similarLeafArea (some (.mk reg c l r)) c config.colorToleranceThreshold : ℝ) /
            (totalLeafArea (some (.mk reg c l r)) : ℝ) := by
  rcases l with _ | lt <;> rcases r with _ | rt
  · simp at h
  all_goals
    simp only [shouldPruneSubtree, countSimilarPixels_eq_leafAreas]

theorem foldl_best_stuck {β : Type} (Wf : β → ℝ) :
    ∀ (l : List β) (w : EReal) (p : β),
      (∀ c ∈ l, ¬((Wf c : EReal) < w)) →
        List.foldl (fun best c => if (Wf c : EReal) < best.1 then ((Wf c : EReal), c) else best)
          (w, p) l = (w, p) := by
  intro l
  induction l with
  | nil => intro w p _; rfl
  | cons c0 l ih =>
    intro w p h
    simp only [List.foldl_cons]
    rw [if_neg (h c0 (List.mem_cons_self c0 l))]
    exact ih w p fun c hc => h c (List.mem_cons_of_mem _ hc)

theorem foldl_best_firstmin {β : Type} (Wf : β → ℝ) :
    ∀ (l : List β) (w : EReal) (p : β),
      (∃ c ∈ l, (Wf c : EReal) < w) →
      ∃ i c, l.get? i = some c ∧
        List.foldl (fun best c => if (Wf c : EReal) < best.1 then ((Wf c : EReal), c) else best)
            (w, p) l = ((Wf c : EReal), c) ∧
        ((Wf c : EReal) < w) ∧
        (∀ j cj, l.get? j = some cj → Wf c ≤ Wf cj) ∧
        (∀ j cj, j < i → l.get? j = some cj → Wf c < Wf cj) := by
  intro l
  induction l with
  | nil =>
    intro w p h
    obtain ⟨c, hc, -⟩ := h
    exact absurd hc (List.not_mem_nil c)
  | cons c0 l ih =>
    intro w p h
    simp only [List.foldl_cons]
    by_cases h0 : (Wf c0 : EReal) < w
    · rw [if_pos h0]
      by_cases h1 : ∃ c ∈ l, (Wf c : EReal) < (Wf c0 : EReal)
      · obtain ⟨i, c, hget, hfold, hlt, hmin, hstrict⟩ := ih (Wf c0 : EReal) c0 h1
        refine ⟨i + 1, c, hget, hfold, lt_trans hlt h0, ?_, ?_⟩
        · intro j cj hj
          cases j with
          | zero =>
            obtain rfl : c0 = cj := Option.some.inj hj
            exact le_of_lt (EReal.coe_lt_coe_iff.mp hlt)
          | succ j => exact hmin j cj hj
        · intro j cj hjlt hj
          cases j with
          | zero =>
            obtain rfl : c0 = cj := Option.some.inj hj
            exact EReal.coe_lt_coe_iff.mp hlt
          | succ j => exact hstrict j cj (by omega) hj
      · push_neg at h1
        rw [foldl_best_stuck Wf l _ _ fun c hc => not_lt.mpr (h1 c hc)]
        refine ⟨0, c0, rfl, rfl, h0, ?_, ?_⟩
        · intro j cj hj
          cases j with
          | zero =>
            obtain rfl : c0 = cj := Option.some.inj hj
            exact le_rfl
          | succ j =>
            have hcj : cj ∈ l := List.get?_mem hj
            exact EReal.coe_le_coe_iff.mp (h1 cj hcj)
        · intro j cj hjlt hj
          omega
    · rw [if_neg h0]
      have h1 : ∃ c ∈ l, (Wf c : EReal) < w := by
        obtain ⟨c, hc, hlt⟩ := h
        rcases List.mem_cons.mp hc with rfl | hc
        · exact absurd hlt h0
        · exact ⟨c, hc, hlt⟩
      obtain ⟨i, c, hget, hfold, hlt, hmin, hstrict⟩ := ih w p h1
      have hc0 : Wf c < Wf c0 := by
        have : (Wf c : EReal) < (Wf c0 : EReal) := lt_of_lt_of_le hlt (not_lt.mp h0)
        exact EReal.coe_lt_coe_iff.mp this
      refine ⟨i + 1, c, hget, hfold, hlt, ?_, ?_⟩
      · intro j cj hj
        cases j with
        | zero =>
          obtain rfl : c0 = cj := Option.some.inj hj
          exact le_of_lt hc0
        | succ j => exact hmin j cj hj
      · intro j cj hjlt hj
        cases j with
        | zero =>
          obtain rfl : c0 = cj := Option.some.inj hj
          exact hc0
        | succ j => exact hstrict j cj (by omega) hj

theorem splitCandidates_partition {region : Rectangle} {c : Rectangle × Rectangle}
    (h : c ∈ splitCandidates region) :
    Disjoint (rectPoints c.1) (rectPoints c.2) ∧
      rectPoints c.1 ∪ rectPoints c.2 = rectPoints region := by
  have h' : c ∈ horizontalCandidates region ∨ c ∈ verticalCandidates region := by
    rcases List.mem_append.mp h with hm | hm
    · left
      revert hm
      split <;> intro hm
      · exact hm
      · simp at hm
    · right
      revert hm
      split <;> intro hm
      · exact hm
      · simp at hm
  obtain ⟨⟨ax, ay⟩, bx, by'⟩ := region
  rcases h' with h' | h'
  · simp only [horizontalCandidates, List.mem_map] at h'
    obtain ⟨i, hi, hc⟩ := h'
    rw [List.mem_range] at hi
    subst hc
    constructor
    · rw [Finset.disjoint_left]
      intro ⟨px, py⟩ hp hq
      rw [rectPoints, Finset.mem_Icc, Prod.mk_le_mk, Prod.mk_le_mk] at hp hq
      omega
    · apply Finset.ext
      intro ⟨px, py⟩
      simp only [rectPoints, Finset.mem_union, Finset.mem_Icc, Prod.mk_le_mk]
      omega
  · simp only [verticalCandidates, List.mem_map] at h'
    obtain ⟨i, hi, hc⟩ := h'
    rw [List.mem_range] at hi
    subst hc
    constructor
    · rw [Finset.disjoint_left]
      intro ⟨px, py⟩ hp hq
      rw [rectPoints, Finset.mem_Icc, Prod.mk_le_mk, Prod.mk_le_mk] at hp hq
      omega
    · apply Finset.ext
      intro ⟨px, py⟩
      simp only [rectPoints, Finset.mem_union, Finset.mem_Icc, Prod.mk_le_mk]
      omega

theorem splitCandidates_ne_nil {region : Rectangle}
    (hwf : region.upperLeft.1 ≤ region.lowerRight.1 ∧ region.upperLeft.2 ≤ region.lowerRight.2)
    (hne : region.upperLeft ≠ region.lowerRight) : splitCandidates region ≠ [] := by
  obtain ⟨⟨ax, ay⟩, bx, by'⟩ := region
  obtain ⟨h1, h2⟩ := hwf
  simp only at h1 h2
  have hdim : 1 < regionHeight ⟨(ax, ay), (bx, by')⟩ ∨ 1 < regionWidth ⟨(ax, ay), (bx, by')⟩ := by
    simp only [regionHeight, regionWidth]
    by_contra hcon
    push_neg at hcon
    exact hne (by
      simp only [Prod.mk.injEq]
      omega)
  rcases hdim with hd | hd
  · intro hnil
    rw [splitCandidates, if_pos hd] at hnil
    obtain ⟨hh, -⟩ := List.append_eq_nil.mp hnil
    rw [horizontalCandidates, List.map_eq_nil_iff, List.range_eq_nil] at hh
    simp only [regionHeight] at hd
    dsimp only at hh hd
    omega
  · intro hnil
    rw [splitCandidates] at hnil
    obtain ⟨-, hv⟩ := List.append_eq_nil.mp hnil
    rw [if_pos hd] at hv
    rw [verticalCandidates, List.map_eq_nil_iff, List.range_eq_nil] at hv
    simp only [regionWidth] at hd
    dsimp only at hv hd
    omega

theorem subtreeTiled_node (reg : Rectangle) (c : HSLAReal) (l r : Option TreeNode)
    (h : l ≠ none ∨ r ≠ none) :
    subtreeTiled (some (.mk reg c l r)) ↔
      Disjoint (optPts l) (optPts r) ∧ optPts l ∪ optPts r = rectPoints reg ∧
        subtreeTiled l ∧ subtreeTiled r := by
  rcases l with _ | lt <;> rcases r with _ | rt
  · simp at h
  all_goals simp only [subtreeTiled]

theorem buildTreeRecursive_region (image : PNG) (region : Rectangle) :
    (buildTreeRecursive image region).region = region := by
  rw [buildTreeRecursive]
  split_ifs <;> rfl

theorem findOptimalSplit_mem (image : PNG) {region : Rectangle}
    (hwf : wfRect region) (hne : region.upperLeft ≠ region.lowerRight) :
    findOptimalSplit image region ∈ splitCandidates region := by
  have hnil := splitCandidates_ne_nil hwf hne
  obtain ⟨c0, hc0⟩ := List.exists_mem_of_ne_nil _ hnil
  obtain ⟨i, c, hget, hfold, -, -, -⟩ :=
    foldl_best_firstmin (weightedEntropy image region) (splitCandidates region) ⊤ dummySplit
      ⟨c0, hc0, EReal.coe_lt_top _⟩
  rw [findOptimalSplit, hfold]
  exact List.get?_mem hget

theorem wf_of_mem_splitCandidates {region : Rectangle} {c : Rectangle × Rectangle}
    (h : c ∈ splitCandidates region) (hwf : wfRect region) : wfRect c.1 ∧ wfRect c.2 := by
  have h' : c ∈ horizontalCandidates region ∨ c ∈ verticalCandidates region := by
    rcases List.mem_append.mp h with hm | hm
    · left
      revert hm
      split <;> intro hm
      · exact hm
      · simp at hm
    · right
      revert hm
      split <;> intro hm
      · exact hm
      · simp at hm
  obtain ⟨⟨ax, ay⟩, bx, by'⟩ := region
  obtain ⟨h1, h2⟩ := hwf
  simp only at h1 h2
  rcases h' with h' | h'
  · simp only [horizontalCandidates, List.mem_map] at h'
    obtain ⟨i, hi, hc⟩ := h'
    rw [List.mem_range] at hi
    subst hc
    constructor <;> · simp only [wfRect]; omega
  · simp only [verticalCandidates, List.mem_map] at h'
    obtain ⟨i, hi, hc⟩ := h'
    rw [List.mem_range] at hi
    subst hc
    constructor <;> · simp only [wfRect]; omega

theorem buildTreeRecursive_tiled (image : PNG) : ∀ (region : Rectangle), wfRect region →
    subtreeTiled (some (buildTreeRecursive image region)) := by
  refine buildTreeRecursive.induct image
    (fun region => wfRect region → subtreeTiled (some (buildTreeRecursive image region))) ?_ ?_
  · intro region h hwf
    rw [buildTreeRecursive, if_pos h]
    simp [subtreeTiled]
  · intro region h ih1 ih2 hwf
    have hmem := findOptimalSplit_mem image hwf h
    obtain ⟨hw1, hw2⟩ := wf_of_mem_splitCandidates hmem hwf
    obtain ⟨hdisj, huni⟩ := splitCandidates_partition hmem
    rw [buildTreeRecursive, if_neg h]
    rw [subtreeTiled_node _ _ _ _ (by simp)]
    refine ⟨?_, ?_, ih1 hw1, ih2 hw2⟩
    · simpa [optPts, buildTreeRecursive_region] using hdisj
    · simpa [optPts, buildTreeRecursive_region] using huni

theorem foldr_union_absorb {X : Type} [DecidableEq X] (S : Finset X) (l : List (Finset X)) :
    l.foldr (· ∪ ·) S = l.foldr (· ∪ ·) ∅ ∪ S := by
  induction l with
  | nil => simp
  | cons a l ih => simp [ih, Finset.union_assoc]

theorem subset_foldr_union {X : Type} [DecidableEq X] {l : List (Finset X)} {a : Finset X}
    (h : a ∈ l) : a ⊆ l.foldr (· ∪ ·) ∅ := by
  induction l with
  | nil => simp at h
  | cons b l ih =>
    rcases List.mem_cons.mp h with rfl | h
    · exact Finset.subset_union_left
    · exact (ih h).trans Finset.subset_union_right

theorem disjoint_foldr_union {X : Type} [DecidableEq X] {l : List (Finset X)} {a : Finset X}
    (h : ∀ b ∈ l, Disjoint a b) : Disjoint a (l.foldr (· ∪ ·) ∅) := by
  induction l with
  | nil => simp
  | cons b l ih =>
    simp only [List.foldr_cons, Finset.disjoint_union_right]
    exact ⟨h b (List.mem_cons_self b l), ih fun x hx => h x (List.mem_cons_of_mem _ hx)⟩

theorem card_foldr_union {X : Type} [DecidableEq X] (l : List (Finset X))
    (h : l.Pairwise Disjoint) : (l.foldr (· ∪ ·) ∅).card = (l.map Finset.card).sum := by
  induction l with
  | nil => simp
  | cons a l ih =>
    obtain ⟨ha, hl⟩ := List.pairwise_cons.mp h
    simp only [List.foldr_cons, List.map_cons, List.sum_cons]
    rw [Finset.card_union_of_disjoint (disjoint_foldr_union ha), ih hl]

theorem leafPtsUnion_eq_optPts (node : Option TreeNode) (h : subtreeTiled node) :
    leafPtsUnion node = optPts node := by
  cases node with
  | none => simp [leafPtsUnion, leavesOf, optPts]
  | some t =>
    induction t using TreeNode.indOn with
    | h reg c l r ihl ihr =>
      by_cases hlr : l = none ∧ r = none
      · obtain ⟨rfl, rfl⟩ := hlr
        simp [leafPtsUnion, leavesOf, optPts, TreeNode.region]
      · have hne : l ≠ none ∨ r ≠ none := by tauto
        rw [subtreeTiled_node reg c l r hne] at h
        obtain ⟨hdisj, huni, htl, htr⟩ := h
        have hl : leafPtsUnion l = optPts l := by
          cases l with
          | none => simp [leafPtsUnion, leavesOf, optPts]
          | some lt => exact ihl lt rfl htl
        have hr : leafPtsUnion r = optPts r := by
          cases r with
          | none => simp [leafPtsUnion, leavesOf, optPts]
          | some rt => exact ihr rt rfl htr
        have hleaves : leavesOf (some (.mk reg c l r)) = leavesOf l ++ leavesOf r := by
          rcases l with _ | lt <;> rcases r with _ | rt
        -- excluded
          · simp at hlr
          · simp [leavesOf]
          · simp [leavesOf]
          · simp [leavesOf]
        have key : ∀ L1 L2 : List (Rectangle × HSLAReal),
            ((L1 ++ L2).map fun p => rectPoints p.1).foldr (· ∪ ·) ∅ =
              ((L1.map fun p => rectPoints p.1).foldr (· ∪ ·) ∅ ∪
                (L2.map fun p => rectPoints p.1).foldr (· ∪ ·) ∅) := by
          intro L1 L2
          rw [List.map_append, List.foldr_append, foldr_union_absorb]
        rw [leafPtsUnion, hleaves, key]
        rw [show (((leavesOf l).map fun p => rectPoints p.1).foldr (· ∪ ·) ∅) = leafPtsUnion l
              from rfl,
            show (((leavesOf r).map fun p => rectPoints p.1).foldr (· ∪ ·) ∅) = leafPtsUnion r
              from rfl,
            hl, hr, huni]
        simp [optPts, TreeNode.region]

theorem leaves_pairwise_disjoint (node : Option TreeNode) (h : subtreeTiled node) :
    (leavesOf node).Pairwise fun p q => Disjoint (rectPoints p.1) (rectPoints q.1) := by
  cases node with
  | none => simp [leavesOf]
  | some t =>
    induction t using TreeNode.indOn with
    | h reg c l r ihl ihr =>
      by_cases hlr : l = none ∧ r = none
      · obtain ⟨rfl, rfl⟩ := hlr
        simp [leavesOf]
      · have hne : l ≠ none ∨ r ≠ none := by tauto
        rw [subtreeTiled_node reg c l r hne] at h
        obtain ⟨hdisj, huni, htl, htr⟩ := h
        have hl : (leavesOf l).Pairwise fun p q => Disjoint (rectPoints p.1) (rectPoints q.1) := by
          cases l with
          | none => simp [leavesOf]
          | some lt => exact ihl lt rfl htl
        have hr : (leavesOf r).Pairwise fun p q => Disjoint (rectPoints p.1) (rectPoints q.1) := by
          cases r with
          | none => simp [leavesOf]
          | some rt => exact ihr rt rfl htr
        have hleaves : leavesOf (some (.mk reg c l r)) = leavesOf l ++ leavesOf r := by
          rcases l with _ | lt <;> rcases r with _ | rt
          · simp at hlr
          · simp [leavesOf]
          · simp [leavesOf]
          · simp [leavesOf]
        rw [hleaves, List.pairwise_append]
        refine ⟨hl, hr, ?_⟩
        intro p hp q hq
        have hpl : rectPoints p.1 ⊆ optPts l := by
          rw [← leafPtsUnion_eq_optPts l htl]
          exact subset_foldr_union (List.mem_map_of_mem _ hp)
        have hqr : rectPoints q.1 ⊆ optPts r := by
          rw [← leafPtsUnion_eq_optPts r htr]
          exact subset_foldr_union (List.mem_map_of_mem _ hq)
        exact Finset.disjoint_of_subset_left hpl (Finset.disjoint_of_subset_right hqr hdisj)

theorem leaves_card_sum (node : Option TreeNode) (h : subtreeTiled node) :
    ((leavesOf node).map fun p => (rectPoints p.1).card).sum = (optPts node).card := by
  rw [← leafPtsUnion_eq_optPts node h, leafPtsUnion]
  rw [card_foldr_union _ (by
    rw [List.pairwise_map]
    exact leaves_pairwise_disjoint node h)]
  rw [List.map_map]
  rfl

theorem optPts_prune (node : Option TreeNode) (config : PruningConfig) :
    optPts (pruneNodeRecursive node config) = optPts node := by
  cases node with
  | none => simp [pruneNodeRecursive]
  | some t =>
    obtain ⟨t', ht', hreg, -⟩ := pruneNodeRecursive_some t config
    rw [ht']
    simp [optPts, hreg]

theorem subtreeTiled_prune (node : Option TreeNode) (config : PruningConfig)
    (h : subtreeTiled node) : subtreeTiled (pruneNodeRecursive node config) := by
  cases node with
  | none => simpa [pruneNodeRecursive] using h
  | some t =>
    induction t using TreeNode.indOn with
    | h reg c l r ihl ihr =>
      by_cases hlr : l = none ∧ r = none
      · obtain ⟨rfl, rfl⟩ := hlr
        simpa [pruneNodeRecursive] using h
      · have hne : l ≠ none ∨ r ≠ none := by tauto
        rw [subtreeTiled_node reg c l r hne] at h
        obtain ⟨hdisj, huni, htl, htr⟩ := h
        have hl : subtreeTiled (pruneNodeRecursive l config) := by
          cases l with
          | none => simp [pruneNodeRecursive, subtreeTiled]
          | some lt => exact ihl lt rfl htl
        have hr : subtreeTiled (pruneNodeRecursive r config) := by
          cases r with
          | none => simp [pruneNodeRecursive, subtreeTiled]
          | some rt => exact ihr rt rfl htr
        have hne' : pruneNodeRecursive l config ≠ none ∨ pruneNodeRecursive r config ≠ none := by
          rcases hne with hne | hne
          · rcases l with _ | lt
            · simp at hne
            · obtain ⟨lt', hlt', -, -⟩ := pruneNodeRecursive_some lt config
              rw [hlt']
              simp
          · rcases r with _ | rt
            · simp at hne
            · obtain ⟨rt', hrt', -, -⟩ := pruneNodeRecursive_some rt config
              rw [hrt']
              simp
        rw [pruneNodeRecursive_node reg c l r config hne]
        split_ifs with hp
        · simp [subtreeTiled]
        · rw [subtreeTiled_node reg c _ _ hne']
          rw [optPts_prune l config, optPts_prune r config]
          exact ⟨hdisj, huni, hl, hr⟩

theorem card_rectPoints_full (W H : ℕ) :
    (rectPoints ⟨(0, 0), ((W : ℤ) - 1, (H : ℤ) - 1)⟩).card = W * H := by
  rw [rectPoints, Finset.Icc_prod_def, Finset.card_product]
  rw [Int.card_Icc, Int.card_Icc]
  simp only
  have h1 : (W : ℤ) - 1 + 1 - 0 = (W : ℤ) := by ring
  have h2 : (H : ℤ) - 1 + 1 - 0 = (H : ℤ) := by ring
  rw [h1, h2, Int.toNat_natCast, Int.toNat_natCast]

end AdaptiveImageTree

/-! ## Supporting lemmas about the integral statistics -/

namespace ImageStatistics

open Utils

theorem cumulativeTable_eq_sum {α : Type} [AddCommGroup α] (f : ℕ → ℕ → α) :
    ∀ x y, cumulativeTable f x y =
      ∑ i ∈ Finset.range (x + 1), ∑ j ∈ Finset.range (y + 1), f i j := by
  intro x
  induction x with
  | zero =>
    intro y
    induction y with
    | zero => simp [cumulativeTable]
    | succ y ihy =>
      rw [cumulativeTable, ihy]
      simp [Finset.sum_range_succ]
  | succ x ihx =>
    intro y
    induction y with
    | zero =>
      rw [cumulativeTable, ihx 0]
      simp [Finset.sum_range_succ]
    | succ y ihy =>
      rw [cumulativeTable, ihx (y + 1), ihy, ihx y]
      simp only [Finset.sum_range_succ]
      abel

theorem ratTrunc_eq_floor {q : ℚ} (h : 0 ≤ q) : ratTrunc q = ⌊q⌋ := by
  rw [ratTrunc, Int.tdiv_eq_ediv (Rat.num_nonneg.mpr h) (by positivity), Rat.floor_def]

theorem hueBinIndex_eq_specHueBin {p : HSLAPixel} (h : 0 ≤ p.hue) :
    hueBinIndex p = specHueBin p := by
  rw [hueBinIndex, specHueBin, ratTrunc_eq_floor (by positivity)]

theorem specHueBin_mem {p : HSLAPixel} (h : 0 ≤ p.hue) :
    0 ≤ specHueBin p ∧ specHueBin p ≤ 35 := by
  rw [specHueBin]
  constructor
  · apply le_min _ (by norm_num)
    positivity
  · exact min_le_right _ _

theorem sum_Ico_Ico_prefix (g : ℕ → ℕ → ℤ) {a B c D : ℕ} (h1 : a ≤ B + 1) (h2 : c ≤ D + 1) :
    ∑ i ∈ Finset.Ico a (B + 1), ∑ j ∈ Finset.Ico c (D + 1), g i j =
      (∑ i ∈ Finset.range (B + 1), ∑ j ∈ Finset.range (D + 1), g i j)
        - (∑ i ∈ Finset.range a, ∑ j ∈ Finset.range (D + 1), g i j)
        - ((∑ i ∈ Finset.range (B + 1), ∑ j ∈ Finset.range c, g i j)
          - (∑ i ∈ Finset.range a, ∑ j ∈ Finset.range c, g i j)) := by
  have hin : ∀ i, ∑ j ∈ Finset.Ico c (D + 1), g i j =
      ∑ j ∈ Finset.range (D + 1), g i j - ∑ j ∈ Finset.range c, g i j :=
    fun i => Finset.sum_Ico_eq_sub _ h2
  rw [Finset.sum_congr rfl fun i _ => hin i, Finset.sum_sub_distrib,
    Finset.sum_Ico_eq_sub _ h1, Finset.sum_Ico_eq_sub _ h1]

theorem buildHueHistogramEntry_eq_count (image : PNG) (region : Rectangle) (b : ℤ)
    (hval : isValidRectangle image region) :
    buildHueHistogramEntry image region b =
      ∑ i ∈ Finset.Ico region.upperLeft.1.toNat (region.lowerRight.1.toNat + 1),
        ∑ j ∈ Finset.Ico region.upperLeft.2.toNat (region.lowerRight.2.toNat + 1),
          (if hueBinIndex (pixelAt image i j) = b then 1 else 0) := by
  obtain ⟨⟨ax, ay⟩, bx, by'⟩ := region
  obtain ⟨h1, h2, h3, h4, h5, h6⟩ := hval
  simp only at h1 h2 h3 h4 h5 h6 ⊢
  have key := sum_Ico_Ico_prefix
    (fun i j => if hueBinIndex (pixelAt image i j) = b then 1 else 0)
    (a := ax.toNat) (B := bx.toNat) (c := ay.toNat) (D := by'.toNat)
    (by omega) (by omega)
  rw [key]
  have hcum : ∀ X Y : ℕ, cumulativeHueHistogram image b X Y =
      ∑ i ∈ Finset.range (X + 1), ∑ j ∈ Finset.range (Y + 1),
        (if hueBinIndex (pixelAt image i j) = b then 1 else 0) :=
    fun X Y => cumulativeTable_eq_sum _ X Y
  rw [buildHueHistogramEntry]
  simp only
  split_ifs with hc1 hc2 hc3
  · obtain ⟨rfl, rfl⟩ := hc1
    simp [hcum]
  · obtain rfl : ax = 0 := hc2
    have hy : (ay - 1).toNat + 1 = ay.toNat := by omega
    rw [hcum, hcum, hy]
    simp
  · obtain rfl : ay = 0 := hc3
    have hx : (ax - 1).toNat + 1 = ax.toNat := by omega
    rw [hcum, hcum, hx]
    simp
  · have hx : (ax - 1).toNat + 1 = ax.toNat := by omega
    have hy : (ay - 1).toNat + 1 = ay.toNat := by omega
    rw [hcum, hcum, hcum, hcum, hx, hy]
    ring

theorem Icc_int_eq_map_Ico (a b : ℤ) (ha : 0 ≤ a) (hab : a ≤ b) :
    Finset.Icc a b =
      (Finset.Ico a.toNat (b.toNat + 1)).map
        ⟨(Nat.cast : ℕ → ℤ), fun m n => by omega⟩ := by
  ext z
  simp only [Finset.mem_Icc, Finset.mem_map, Finset.mem_Ico, Function.Embedding.coeFn_mk]
  constructor
  · intro ⟨hz1, hz2⟩
    exact ⟨z.toNat, by omega, by omega⟩
  · rintro ⟨n, ⟨hn1, hn2⟩, rfl⟩
    omega

theorem sum_Icc_int_toNat (g : ℤ → ℤ) {a b : ℤ} (ha : 0 ≤ a) (hab : a ≤ b) :
    ∑ i ∈ Finset.Icc a b, g i =
      ∑ i ∈ Finset.Ico a.toNat (b.toNat + 1), g (i : ℤ) := by
  rw [Icc_int_eq_map_Ico a b ha hab, Finset.sum_map]
  rfl

theorem buildHueHistogramEntry_eq_directBinCount (image : PNG) (region : Rectangle)
    (hval : isValidRectangle image region)
    (hhue : ∀ x y : ℕ, 0 ≤ (pixelAt image x y).hue) (b : ℤ) :
    buildHueHistogramEntry image region b = (directBinCount image region b : ℤ) := by
  obtain ⟨h1, h2, h3, h4, h5, h6⟩ := hval
  have hdir : (directBinCount image region b : ℤ) =
      ∑ i ∈ Finset.Ico region.upperLeft.1.toNat (region.lowerRight.1.toNat + 1),
        ∑ j ∈ Finset.Ico region.upperLeft.2.toNat (region.lowerRight.2.toNat + 1),
          (if specHueBin (pixelAt image i j) = b then 1 else 0) := by
    rw [directBinCount, rectPoints, Finset.card_filter]
    push_cast
    rw [Finset.Icc_prod_def, Finset.sum_product]
    rw [sum_Icc_int_toNat _ h1 h5]
    refine Finset.sum_congr rfl fun i _ => ?_
    rw [sum_Icc_int_toNat _ h2 h6]
    refine Finset.sum_congr rfl fun j _ => ?_
    simp [pixelAtZ]
  rw [hdir, buildHueHistogramEntry_eq_count image region b ⟨h1, h2, h3, h4, h5, h6⟩]
  refine Finset.sum_congr rfl fun i _ => Finset.sum_congr rfl fun j _ => ?_
  rw [hueBinIndex_eq_specHueBin (hhue i j)]

theorem sum_bins_indicator {p : HSLAPixel} (h : 0 ≤ p.hue) :
    ∑ b : Fin 36, (if hueBinIndex p = ((b : ℕ) : ℤ) then (1 : ℤ) else 0) = 1 := by
  obtain ⟨hb0, hb1⟩ := specHueBin_mem h
  rw [hueBinIndex_eq_specHueBin h] at *
  rw [Finset.sum_eq_single (⟨(specHueBin p).toNat, by omega⟩ : Fin 36)]
  · rw [if_pos (by simp only [Fin.val_mk]; omega)]
  · intro b' _ hne
    rw [if_neg]
    intro he
    refine hne (Fin.ext ?_)
    simp only [Fin.val_mk]
    omega
  · intro habs
    exact absurd (Finset.mem_univ _) habs

theorem sum_buildHueHistogram_eq_area (image : PNG) (region : Rectangle)
    (hval : isValidRectangle image region)
    (hhue : ∀ x y : ℕ, 0 ≤ (pixelAt image x y).hue) :
    (buildHueHistogram image region).sum = getArea region := by
  obtain ⟨h1, h2, h3, h4, h5, h6⟩ := hval
  rw [buildHueHistogram, List.sum_ofFn]
  have hentry : ∀ b : Fin 36, buildHueHistogramEntry image region ((b : ℕ) : ℤ) =
      ∑ i ∈ Finset.Ico region.upperLeft.1.toNat (region.lowerRight.1.toNat + 1),
        ∑ j ∈ Finset.Ico region.upperLeft.2.toNat (region.lowerRight.2.toNat + 1),
          (if hueBinIndex (pixelAt image i j) = ((b : ℕ) : ℤ) then 1 else 0) :=
    fun b => buildHueHistogramEntry_eq_count image region _ ⟨h1, h2, h3, h4, h5, h6⟩
  calc ∑ b : Fin 36, buildHueHistogramEntry image region ((b : ℕ) : ℤ)
      = ∑ i ∈ Finset.Ico region.upperLeft.1.toNat (region.lowerRight.1.toNat + 1),
          ∑ j ∈ Finset.Ico region.upperLeft.2.toNat (region.lowerRight.2.toNat + 1),
            ∑ b : Fin 36, (if hueBinIndex (pixelAt image i j) = ((b : ℕ) : ℤ) then 1 else 0) := by
        rw [Finset.sum_congr rfl fun b _ => hentry b]
        rw [Finset.sum_comm]
        refine Finset.sum_congr rfl fun i _ => ?_
        rw [Finset.sum_comm]
    _ = ∑ i ∈ Finset.Ico region.upperLeft.1.toNat (region.lowerRight.1.toNat + 1),
          ∑ j ∈ Finset.Ico region.upperLeft.2.toNat (region.lowerRight.2.toNat + 1), (1 : ℤ) := by
        exact Finset.sum_congr rfl fun i _ => Finset.sum_congr rfl fun j _ =>
          sum_bins_indicator (hhue i j)
    _ = getArea region := by
        simp only [Finset.sum_const, Nat.card_Ico, nsmul_eq_mul, mul_one]
        rw [getArea]
        have f1 : ((region.lowerRight.1.toNat + 1 - region.upperLeft.1.toNat : ℕ) : ℤ) =
            region.lowerRight.1 - region.upperLeft.1 + 1 := by omega
        have f2 : ((region.lowerRight.2.toNat + 1 - region.upperLeft.2.toNat : ℕ) : ℤ) =
            region.lowerRight.2 - region.upperLeft.2 + 1 := by omega
        push_cast [← f1, ← f2]
        ring

theorem incrementAt_length (l : List ℤ) (k : ℕ) : (incrementAt l k).length = l.length := by
  induction l generalizing k with
  | nil => rfl
  | cons c rest ih =>
    cases k with
    | zero => rfl
    | succ k => simp [incrementAt, ih]

theorem getElem_incrementAt (l : List ℤ) (k i : ℕ) (hi : i < l.length)
    (hi2 : i < (incrementAt l k).length) :
    (incrementAt l k)[i] = if i = k then l[i] + 1 else l[i] := by
  induction l generalizing k i with
  | nil => simp at hi
  | cons c rest ih =>
    cases k with
    | zero =>
      cases i with
      | zero => simp [incrementAt]
      | succ i => simp [incrementAt]
    | succ k =>
      cases i with
      | zero => simp [incrementAt]
      | succ i =>
        have hi' : i < rest.length := by simpa using hi
        have hi2' : i < (incrementAt rest k).length := by
          rw [incrementAt_length]
          exact hi'
        simp only [incrementAt, List.getElem_cons_succ]
        rw [ih k i hi' hi2']
        simp

theorem incrementAt_ofFn {n : ℕ} (f : Fin n → ℤ) (k : ℕ) :
    incrementAt (List.ofFn f) k =
      List.ofFn fun i : Fin n => if (i : ℕ) = k then f i + 1 else f i := by
  apply List.ext_getElem
  · rw [incrementAt_length]
    simp
  · intro i h1 h2
    have hi : i < (List.ofFn f).length := by rw [← incrementAt_length (List.ofFn f) k]; exact h1
    rw [getElem_incrementAt (List.ofFn f) k i hi h1]
    have hi' : i < n := by simpa using hi
    simp [List.getElem_ofFn]

theorem zipWith_ofFn {n : ℕ} (h : ℤ → ℤ → ℤ) (f g : Fin n → ℤ) :
    List.zipWith h (List.ofFn f) (List.ofFn g) = List.ofFn fun i => h (f i) (g i) := by
  apply List.ext_getElem
  · simp
  · intro i h1 h2
    have hi : i < n := by simpa using h2
    simp [List.getElem_zipWith, List.getElem_ofFn]

theorem set_replicate_ofFn (k : ℕ) :
    (List.replicate HUE_BINS (0 : ℤ)).set k 1 =
      List.ofFn fun i : Fin HUE_BINS => if (i : ℕ) = k then 1 else 0 := by
  apply List.ext_getElem
  · simp [HUE_BINS]
  · intro i h1 h2
    have hi : i < HUE_BINS := by simpa using h2
    rw [List.getElem_set]
    simp only [List.getElem_replicate, List.getElem_ofFn]
    rcases eq_or_ne k i with rfl | hik
    · simp
    · simp [hik, Ne.symm hik]

theorem cumulativeHueHistogram_zero_zero (image : PNG) (b : ℤ) :
    cumulativeHueHistogram image b 0 0 =
      (if hueBinIndex (pixelAt image 0 0) = b then 1 else 0) := by
  rw [cumulativeHueHistogram, cumulativeTable]

theorem cumulativeHueHistogram_succ_zero (image : PNG) (b : ℤ) (x : ℕ) :
    cumulativeHueHistogram image b (x + 1) 0 =
      cumulativeHueHistogram image b x 0 +
        (if hueBinIndex (pixelAt image (x + 1) 0) = b then 1 else 0) := by
  rw [cumulativeHueHistogram, cumulativeTable]
  rfl

theorem cumulativeHueHistogram_zero_succ (image : PNG) (b : ℤ) (y : ℕ) :
    cumulativeHueHistogram image b 0 (y + 1) =
      cumulativeHueHistogram image b 0 y +
        (if hueBinIndex (pixelAt image 0 (y + 1)) = b then 1 else 0) := by
  rw [cumulativeHueHistogram, cumulativeTable]
  rfl

theorem cumulativeHueHistogram_succ_succ (image : PNG) (b : ℤ) (x y : ℕ) :
    cumulativeHueHistogram image b (x + 1) (y + 1) =
      cumulativeHueHistogram image b x (y + 1) + cumulativeHueHistogram image b (x + 1) y -
        cumulativeHueHistogram image b x y +
        (if hueBinIndex (pixelAt image (x + 1) (y + 1)) = b then 1 else 0) := by
  rw [cumulativeHueHistogram, cumulativeTable]
  rfl

theorem cumulativeHueHistogramNested_eq_flat (image : PNG)
    (hhue : ∀ x y : ℕ, 0 ≤ (pixelAt image x y).hue) :
    ∀ x y, cumulativeHueHistogramNested image x y =
      List.ofFn fun b : Fin HUE_BINS => cumulativeHueHistogram image ((b : ℕ) : ℤ) x y := by
  have hpoint : ∀ (x y : ℕ) (b : Fin HUE_BINS),
      ((b : ℕ) = (hueBinIndex (pixelAt image x y)).toNat) ↔
        (hueBinIndex (pixelAt image x y) = ((b : ℕ) : ℤ)) := by
    intro x y b
    have hb0 : 0 ≤ hueBinIndex (pixelAt image x y) ∧ hueBinIndex (pixelAt image x y) ≤ 35 := by
      rw [hueBinIndex_eq_specHueBin (hhue x y)]
      exact specHueBin_mem (hhue x y)
    obtain ⟨hb0, hb1⟩ := hb0
    omega
  intro x
  induction x with
  | zero =>
    intro y
    induction y with
    | zero =>
      rw [cumulativeHueHistogramNested, set_replicate_ofFn]
      simp only [cumulativeHueHistogram_zero_zero]
      refine congrArg List.ofFn (funext fun b => ?_)
      by_cases hb : (b : ℕ) = (hueBinIndex (pixelAt image 0 0)).toNat
      · rw [if_pos hb, if_pos ((hpoint 0 0 b).mp hb)]
      · rw [if_neg hb, if_neg fun hx => hb ((hpoint 0 0 b).mpr hx)]
    | succ y ihy =>
      rw [cumulativeHueHistogramNested, ihy, incrementAt_ofFn]
      simp only [cumulativeHueHistogram_zero_succ]
      refine congrArg List.ofFn (funext fun b => ?_)
      by_cases hb : (b : ℕ) = (hueBinIndex (pixelAt image 0 (y + 1))).toNat
      · rw [if_pos hb, if_pos ((hpoint 0 (y + 1) b).mp hb)]
      · rw [if_neg hb, if_neg fun hx => hb ((hpoint 0 (y + 1) b).mpr hx), add_zero]
  | succ x ihx =>
    intro y
    induction y with
    | zero =>
      rw [cumulativeHueHistogramNested, ihx 0, incrementAt_ofFn]
      simp only [cumulativeHueHistogram_succ_zero]
      refine congrArg List.ofFn (funext fun b => ?_)
      by_cases hb : (b : ℕ) = (hueBinIndex (pixelAt image (x + 1) 0)).toNat
      · rw [if_pos hb, if_pos ((hpoint (x + 1) 0 b).mp hb)]
      · rw [if_neg hb, if_neg fun hx' => hb ((hpoint (x + 1) 0 b).mpr hx'), add_zero]
    | succ y ihy =>
      rw [cumulativeHueHistogramNested, ihx (y + 1), ihx y, ihy,
        addHistograms, zipWith_ofFn, subtractHistograms, zipWith_ofFn, incrementAt_ofFn]
      simp only [cumulativeHueHistogram_succ_succ]
      refine congrArg List.ofFn (funext fun b => ?_)
      by_cases hb : (b : ℕ) = (hueBinIndex (pixelAt image (x + 1) (y + 1))).toNat
      · rw [if_pos hb, if_pos ((hpoint (x + 1) (y + 1) b).mp hb)]
      · rw [if_neg hb, if_neg fun hx' => hb ((hpoint (x + 1) (y + 1) b).mpr hx'), add_zero]

theorem buildHueHistogramNested_eq_flat (image : PNG) (region : Rectangle)
    (hhue : ∀ x y : ℕ, 0 ≤ (pixelAt image x y).hue) :
    buildHueHistogramNested image region = buildHueHistogram image region := by
  have hc := cumulativeHueHistogramNested_eq_flat image hhue
  rw [buildHueHistogramNested, buildHueHistogram]
  simp only
  split_ifs with hc1 hc2 hc3
  · rw [hc]
    refine congrArg List.ofFn (funext fun b => ?_)
    rw [buildHueHistogramEntry]
    simp only
    rw [if_pos hc1]
  · rw [hc, hc, subtractHistograms, zipWith_ofFn]
    refine congrArg List.ofFn (funext fun b => ?_)
    rw [buildHueHistogramEntry]
    simp only
    rw [if_neg hc1, if_pos hc2]
  · rw [hc, hc, subtractHistograms, zipWith_ofFn]
    refine congrArg List.ofFn (funext fun b => ?_)
    rw [buildHueHistogramEntry]
    simp only
    rw [if_neg hc1, if_neg hc2, if_pos hc3]
  · rw [hc, hc, hc, hc, subtractHistograms, subtractHistograms, addHistograms,
      zipWith_ofFn, zipWith_ofFn, zipWith_ofFn]
    refine congrArg List.ofFn (funext fun b => ?_)
    rw [buildHueHistogramEntry]
    simp only
    rw [if_neg hc1, if_neg hc2, if_neg hc3]

end ImageStatistics

namespace Utils

/-! ## Color conversion round trip (supporting lemmas)

`rgbToHsla` / `hslaToRgb` operate over exact rationals; the key facts are that
for a chromatic pixel the reconstruction parameters satisfy `q = maxVal` and
`p = minVal`, and that the piecewise `hueToRgb` then reproduces each original
channel exactly. -/

theorem cround_natCast (n : ℕ) : cround ((n : ℕ) : ℚ) = ((n : ℕ) : ℤ) := by
  rw [cround, if_pos (by positivity)]
  rw [Int.floor_eq_iff]
  constructor
  · push_cast
    linarith
  · push_cast
    linarith

theorem toU8_finCast (F : Fin 256) : toU8 (((F : ℕ) : ℤ)) = F := by
  rw [toU8]
  apply Fin.ext
  simp only [Int.toNat_natCast]
  exact Nat.mod_eq_of_lt F.isLt

theorem channel_out (F : Fin 256) : toU8 (cround (((F : ℕ) : ℚ) / 255 * 255)) = F := by
  rw [div_mul_cancel₀ _ (by norm_num : (255:ℚ) ≠ 0), cround_natCast, toU8_finCast]

theorem hueToRgb_seg1 (p q t0 : ℚ) (h0 : 0 ≤ t0) (h1 : t0 ≤ 1/6) :
    hueToRgb p q t0 = p + (q - p) * 6 * t0 := by
  simp only [hueToRgb]
  rw [if_neg (not_lt.mpr h0), if_neg (by linarith : ¬(1:ℚ) < t0)]
  rcases lt_or_eq_of_le h1 with h | h
  · rw [if_pos h]
  · subst h
    rw [if_neg (by norm_num), if_pos (by norm_num)]
    ring

theorem hueToRgb_seg2 (p q t0 : ℚ) (h0 : 1/6 ≤ t0) (h1 : t0 ≤ 1/2) :
    hueToRgb p q t0 = q := by
  simp only [hueToRgb]
  rw [if_neg (by linarith : ¬t0 < 0), if_neg (by linarith : ¬(1:ℚ) < t0),
    if_neg (not_lt.mpr h0)]
  rcases lt_or_eq_of_le h1 with h | h
  · rw [if_pos h]
  · subst h
    rw [if_neg (by norm_num), if_pos (by norm_num)]
    ring

theorem hueToRgb_seg3 (p q t0 : ℚ) (h0 : 1/2 ≤ t0) (h1 : t0 ≤ 2/3) :
    hueToRgb p q t0 = p + (q - p) * (2/3 - t0) * 6 := by
  simp only [hueToRgb]
  rw [if_neg (by linarith : ¬t0 < 0), if_neg (by linarith : ¬(1:ℚ) < t0),
    if_neg (by linarith : ¬t0 < 1/6), if_neg (not_lt.mpr h0)]
  rcases lt_or_eq_of_le h1 with h | h
  · rw [if_pos h]
  · subst h
    rw [if_neg (by norm_num)]
    ring

theorem hueToRgb_seg4 (p q t0 : ℚ) (h0 : 2/3 ≤ t0) (h1 : t0 ≤ 1) :
    hueToRgb p q t0 = p := by
  simp only [hueToRgb]
  rw [if_neg (by linarith : ¬t0 < 0), if_neg (by linarith : ¬(1:ℚ) < t0),
    if_neg (by linarith : ¬t0 < 1/6), if_neg (by linarith : ¬t0 < 1/2),
    if_neg (not_lt.mpr h0)]

theorem hueToRgb_add_one (p q t0 : ℚ) (h : t0 < 0) (h2 : -1 ≤ t0) :
    hueToRgb p q t0 = hueToRgb p q (t0 + 1) := by
  simp only [hueToRgb]
  rw [if_pos h, if_neg (by linarith : ¬t0 + 1 < 0), if_neg (by linarith : ¬(1:ℚ) < t0 + 1)]

theorem hueToRgb_sub_one (p q t0 : ℚ) (h : 1 < t0) (h2 : t0 ≤ 2) :
    hueToRgb p q t0 = hueToRgb p q (t0 - 1) := by
  simp only [hueToRgb]
  rw [if_neg (by linarith : ¬t0 < 0), if_pos h, if_neg (by linarith : ¬t0 - 1 < 0),
    if_neg (by linarith : ¬(1:ℚ) < t0 - 1)]

theorem sat_lum_reconstruct (M m L s q0 : ℚ) (h0 : 0 ≤ m) (h1 : M ≤ 1) (hlt : m < M)
    (heps : EPSILON ≤ M - m) (hL : L = (M + m) * 0.5)
    (hs : s = if L < 0.5 then (M - m) / (M + m) else (M - m) / (2 - M - m))
    (hq : q0 = if L < 0.5 then L * (1 + s) else L + s - L * s) :
    EPSILON ≤ s ∧ q0 = M ∧ 2 * L - q0 = m := by
  by_cases hhalf : L < 0.5
  · rw [if_pos hhalf] at hs hq
    have hMm : 0 < M + m := by linarith
    have hMm1 : M + m < 1 := by
      rw [hL] at hhalf
      linarith
    have hsge : M - m ≤ s := by
      rw [hs, le_div_iff hMm]
      nlinarith
    refine ⟨le_trans heps hsge, ?_, ?_⟩
    · rw [hq, hL, hs]
      field_simp
      ring
    · rw [hq, hL, hs]
      field_simp
      ring
  · rw [if_neg hhalf] at hs hq
    have hm1 : m < 1 := lt_of_lt_of_le hlt h1
    have h2 : 0 < 2 - M - m := by linarith
    have h2' : 2 - M - m ≤ 1 := by
      rw [hL] at hhalf
      push_neg at hhalf
      linarith
    have hsge : M - m ≤ s := by
      rw [hs, le_div_iff h2]
      nlinarith
    refine ⟨le_trans heps hsge, ?_, ?_⟩
    · rw [hq, hL, hs]
      field_simp
      ring
    · rw [hq, hL, hs]
      field_simp
      ring

theorem hue_reconstruct (r g b M m u : ℚ)
    (hM : M = max r (max g b)) (hm : m = min r (min g b)) (hlt : m < M)
    (hu : u = if M = r then (if g < b then (g - b) / (M - m) + 6 else (g - b) / (M - m))
      else if M = g then (b - r) / (M - m) + 2 else (r - g) / (M - m) + 4) :
    hueToRgb m M (u / 6 + 1/3) = r ∧ hueToRgb m M (u / 6) = g ∧
      hueToRgb m M (u / 6 - 1/3) = b := by
  have hD : 0 < M - m := by linarith
  have hDne : M - m ≠ 0 := ne_of_gt hD
  have hrM : r ≤ M := hM ▸ le_max_left _ _
  have hgM : g ≤ M := hM ▸ le_trans (le_max_left _ _) (le_max_right _ _)
  have hbM : b ≤ M := hM ▸ le_trans (le_max_right _ _) (le_max_right _ _)
  have hmr : m ≤ r := hm ▸ min_le_left _ _
  have hmg : m ≤ g := hm ▸ le_trans (min_le_right _ _) (min_le_left _ _)
  have hmb : m ≤ b := hm ▸ le_trans (min_le_right _ _) (min_le_right _ _)
  by_cases hMr : M = r
  · by_cases hgb : g < b
    · -- max is r and g < b: u = (g-b)/delta + 6 lies in [5,6)
      rw [if_pos hMr, if_pos hgb] at hu
      have hd1 : -1 ≤ (g - b) / (M - m) := by
        rw [le_div_iff hD]
        linarith
      have hd2 : (g - b) / (M - m) < 0 := div_neg_of_neg_of_pos (by linarith) hD
      have hgr : g ≤ r := by
        rw [← hMr]
        exact hgM
      have hmeq : m = g := by
        rw [hm, min_eq_left (le_of_lt hgb)]
        exact min_eq_right hgr
      refine ⟨?_, ?_, ?_⟩
      · rw [hueToRgb_sub_one m M (u / 6 + 1/3) (by rw [hu]; linarith) (by rw [hu]; linarith),
          hueToRgb_seg2 m M (u / 6 + 1/3 - 1) (by rw [hu]; linarith) (by rw [hu]; linarith)]
        exact hMr
      · rw [hueToRgb_seg4 m M (u / 6) (by rw [hu]; linarith) (by rw [hu]; linarith)]
        exact hmeq
      · rw [hueToRgb_seg3 m M (u / 6 - 1/3) (by rw [hu]; linarith) (by rw [hu]; linarith)]
        rw [hmeq] at hDne ⊢
        rw [hu, hmeq]
        field_simp
        try ring
    · -- max is r and b ≤ g: u = (g-b)/delta lies in [0,1]
      rw [if_pos hMr, if_neg hgb] at hu
      push_neg at hgb
      have hd1 : 0 ≤ (g - b) / (M - m) := div_nonneg (by linarith) (le_of_lt hD)
      have hd2 : (g - b) / (M - m) ≤ 1 := by
        rw [div_le_one hD]
        linarith
      have hbr : b ≤ r := by
        rw [← hMr]
        exact hbM
      have hmeq : m = b := by
        rw [hm, min_eq_right hgb]
        exact min_eq_right hbr
      refine ⟨?_, ?_, ?_⟩
      · rw [hueToRgb_seg2 m M (u / 6 + 1/3) (by rw [hu]; linarith) (by rw [hu]; linarith)]
        exact hMr
      · rw [hueToRgb_seg1 m M (u / 6) (by rw [hu]; linarith) (by rw [hu]; linarith)]
        rw [hmeq] at hDne ⊢
        rw [hu, hmeq]
        field_simp
        try ring
      · rw [hueToRgb_add_one m M (u / 6 - 1/3) (by rw [hu]; linarith) (by rw [hu]; linarith),
          hueToRgb_seg4 m M (u / 6 - 1/3 + 1) (by rw [hu]; linarith) (by rw [hu]; linarith)]
        exact hmeq
  · by_cases hMg : M = g
    · -- max is g (and not r): u = (b-r)/delta + 2 lies in [1,3]
      rw [if_neg hMr, if_pos hMg] at hu
      have hd1 : -1 ≤ (b - r) / (M - m) := by
        rw [le_div_iff hD]
        linarith
      have hd2 : (b - r) / (M - m) ≤ 1 := by
        rw [div_le_one hD]
        linarith
      have hbg : b ≤ g := by
        rw [← hMg]
        exact hbM
      have hminrb : m = min r b := by
        rw [hm, min_eq_right hbg]
      refine ⟨?_, ?_, ?_⟩
      · rcases le_total b r with hbr | hbr
        · have hd3 : (b - r) / (M - m) ≤ 0 := by
            rw [div_le_iff hD]
            linarith
          have hmeq : m = b := by
            rw [hminrb]
            exact min_eq_right hbr
          rw [hueToRgb_seg3 m M (u / 6 + 1/3) (by rw [hu]; linarith) (by rw [hu]; linarith)]
          rw [hmeq] at hDne ⊢
          rw [hu, hmeq]
          field_simp
          try ring
        · have hd3 : 0 ≤ (b - r) / (M - m) := div_nonneg (by linarith) (le_of_lt hD)
          have hmeq : m = r := by
            rw [hminrb]
            exact min_eq_left hbr
          rw [hueToRgb_seg4 m M (u / 6 + 1/3) (by rw [hu]; linarith) (by rw [hu]; linarith)]
          exact hmeq
      · rw [hueToRgb_seg2 m M (u / 6) (by rw [hu]; linarith) (by rw [hu]; linarith)]
        exact hMg
      · rcases le_or_lt r b with hrb | hrb
        · have hd3 : 0 ≤ (b - r) / (M - m) := div_nonneg (by linarith) (le_of_lt hD)
          have hmeq : m = r := by
            rw [hminrb]
            exact min_eq_left hrb
          rw [hueToRgb_seg1 m M (u / 6 - 1/3) (by rw [hu]; linarith) (by rw [hu]; linarith)]
          rw [hmeq] at hDne ⊢
          rw [hu, hmeq]
          field_simp
          try ring
        · have hd3 : (b - r) / (M - m) < 0 := div_neg_of_neg_of_pos (by linarith) hD
          have hmeq : m = b := by
            rw [hminrb]
            exact min_eq_right (le_of_lt hrb)
          rw [hueToRgb_add_one m M (u / 6 - 1/3) (by rw [hu]; linarith) (by rw [hu]; linarith),
            hueToRgb_seg4 m M (u / 6 - 1/3 + 1) (by rw [hu]; linarith) (by rw [hu]; linarith)]
          exact hmeq
    · -- max is b (and not r, not g): u = (r-g)/delta + 4 lies in [3,5]
      rw [if_neg hMr, if_neg hMg] at hu
      have hMb : M = b := by
        rcases max_choice g b with h | h
        · rcases max_choice r (max g b) with h2 | h2
          · exact absurd (hM.trans h2) hMr
          · exact absurd (hM.trans (h2.trans h)) hMg
        · rcases max_choice r (max g b) with h2 | h2
          · exact absurd (hM.trans h2) hMr
          · exact hM.trans (h2.trans h)
      have hd1 : -1 ≤ (r - g) / (M - m) := by
        rw [le_div_iff hD]
        linarith
      have hd2 : (r - g) / (M - m) ≤ 1 := by
        rw [div_le_one hD]
        linarith
      have hgb2 : g ≤ b := by
        rw [← hMb]
        exact hgM
      have hminrg : m = min r g := by
        rw [hm, min_eq_left hgb2]
      refine ⟨?_, ?_, ?_⟩
      · rcases le_or_lt r g with hrg | hrg
        · have hd3 : (r - g) / (M - m) ≤ 0 := by
            rw [div_le_iff hD]
            linarith
          have hmeq : m = r := by
            rw [hminrg]
            exact min_eq_left hrg
          rw [hueToRgb_seg4 m M (u / 6 + 1/3) (by rw [hu]; linarith) (by rw [hu]; linarith)]
          exact hmeq
        · have hd3 : 0 < (r - g) / (M - m) := div_pos (by linarith) hD
          have hmeq : m = g := by
            rw [hminrg]
            exact min_eq_right (le_of_lt hrg)
          rw [hueToRgb_sub_one m M (u / 6 + 1/3) (by rw [hu]; linarith) (by rw [hu]; linarith),
            hueToRgb_seg1 m M (u / 6 + 1/3 - 1) (by rw [hu]; linarith) (by rw [hu]; linarith)]
          rw [hmeq] at hDne ⊢
          rw [hu, hmeq]
          field_simp
          try ring
      · rcases le_total r g with hrg | hrg
        · have hd3 : (r - g) / (M - m) ≤ 0 := by
            rw [div_le_iff hD]
            linarith
          have hmeq : m = r := by
            rw [hminrg]
            exact min_eq_left hrg
          rw [hueToRgb_seg3 m M (u / 6) (by rw [hu]; linarith) (by rw [hu]; linarith)]
          rw [hmeq] at hDne ⊢
          rw [hu, hmeq]
          field_simp
          try ring
        · have hd3 : 0 ≤ (r - g) / (M - m) := div_nonneg (by linarith) (le_of_lt hD)
          have hmeq : m = g := by
            rw [hminrg]
            exact min_eq_right hrg
          rw [hueToRgb_seg4 m M (u / 6) (by rw [hu]; linarith) (by rw [hu]; linarith)]
          exact hmeq
      · rw [hueToRgb_seg2 m M (u / 6 - 1/3) (by rw [hu]; linarith) (by rw [hu]; linarith)]
        exact hMb

theorem natdiv_quant (X Y : ℕ) (h : (Y : ℚ) / 255 ≤ (X : ℚ) / 255) :
    (X : ℚ) / 255 - (Y : ℚ) / 255 = 0 ∨ (1 : ℚ) / 255 ≤ (X : ℚ) / 255 - (Y : ℚ) / 255 := by
  have hYX : Y ≤ X := by
    have h' : (Y : ℚ) ≤ (X : ℚ) := by linarith
    exact_mod_cast h'
  rcases Nat.eq_or_lt_of_le hYX with rfl | hlt
  · left
    ring
  · right
    have h1 : (Y : ℚ) + 1 ≤ (X : ℚ) := by exact_mod_cast hlt
    linarith

theorem hslaToRgb_rgbToHsla (x : RGBColor) : hslaToRgb (rgbToHsla x) = x := by
  obtain ⟨R, G, B, A⟩ := x
  simp only [rgbToHsla]
  set r : ℚ := ((R : ℕ) : ℚ) / 255 with hr_def
  set g : ℚ := ((G : ℕ) : ℚ) / 255 with hg_def
  set b : ℚ := ((B : ℕ) : ℚ) / 255 with hb_def
  set a : ℚ := ((A : ℕ) : ℚ) / 255 with ha_def
  set M : ℚ := max r (max g b) with hM_def
  set m : ℚ := min r (min g b) with hm_def
  have hr0 : 0 ≤ r := by rw [hr_def]; positivity
  have hg0 : 0 ≤ g := by rw [hg_def]; positivity
  have hb0 : 0 ≤ b := by rw [hb_def]; positivity
  have hr1 : r ≤ 1 := by
    rw [hr_def, div_le_one (by norm_num : (0:ℚ) < 255)]
    exact_mod_cast (by omega : (R : ℕ) ≤ 255)
  have hg1 : g ≤ 1 := by
    rw [hg_def, div_le_one (by norm_num : (0:ℚ) < 255)]
    exact_mod_cast (by omega : (G : ℕ) ≤ 255)
  have hb1 : b ≤ 1 := by
    rw [hb_def, div_le_one (by norm_num : (0:ℚ) < 255)]
    exact_mod_cast (by omega : (B : ℕ) ≤ 255)
  have hrM : r ≤ M := le_max_left _ _
  have hgM : g ≤ M := le_trans (le_max_left _ _) (le_max_right _ _)
  have hbM : b ≤ M := le_trans (le_max_right _ _) (le_max_right _ _)
  have hmr : m ≤ r := min_le_left _ _
  have hmg : m ≤ g := le_trans (min_le_right _ _) (min_le_left _ _)
  have hmb : m ≤ b := le_trans (min_le_right _ _) (min_le_right _ _)
  have hm0 : 0 ≤ m := le_min hr0 (le_min hg0 hb0)
  have hM1 : M ≤ 1 := max_le hr1 (max_le hg1 hb1)
  have hmM : m ≤ M := le_trans hmr hrM
  have hMchoice : M = r ∨ M = g ∨ M = b := by
    rw [hM_def]
    rcases max_choice g b with h | h <;> rcases max_choice r (max g b) with h2 | h2
    · exact Or.inl h2
    · exact Or.inr (Or.inl (h2.trans h))
    · exact Or.inl h2
    · exact Or.inr (Or.inr (h2.trans h))
  have hmchoice : m = r ∨ m = g ∨ m = b := by
    rw [hm_def]
    rcases min_choice g b with h | h <;> rcases min_choice r (min g b) with h2 | h2
    · exact Or.inl h2
    · exact Or.inr (Or.inl (h2.trans h))
    · exact Or.inl h2
    · exact Or.inr (Or.inr (h2.trans h))
  have hquant : M - m = 0 ∨ (1 : ℚ) / 255 ≤ M - m := by
    have key : ∀ X Y : Fin 256, ((Y : ℕ) : ℚ) / 255 ≤ ((X : ℕ) : ℚ) / 255 →
        ((X : ℕ) : ℚ) / 255 - ((Y : ℕ) : ℚ) / 255 = 0 ∨
          (1 : ℚ) / 255 ≤ ((X : ℕ) : ℚ) / 255 - ((Y : ℕ) : ℚ) / 255 :=
      fun X Y h => natdiv_quant (X : ℕ) (Y : ℕ) h
    rcases hMchoice with h1 | h1 | h1 <;> rcases hmchoice with h2 | h2 | h2 <;>
      rw [h1, h2] <;> rw [h1, h2] at hmM <;>
      simp only [hr_def, hg_def, hb_def] at hmM ⊢
    · exact key R R hmM
    · exact key R G hmM
    · exact key R B hmM
    · exact key G R hmM
    · exact key G G hmM
    · exact key G B hmM
    · exact key B R hmM
    · exact key B G hmM
    · exact key B B hmM
  have halpha : toU8 (cround (a * 255)) = A := by
    rw [ha_def]
    exact channel_out A
  by_cases hgray : M - m < EPSILON
  · rw [if_pos hgray]
    have hMm : M = m := by
      rcases hquant with h | h
      · linarith
      · exfalso
        rw [EPSILON] at hgray
        linarith
    have hrg : r = g := by linarith
    have hrb : r = b := by linarith
    have hL : (M + m) * 0.5 = r := by
      have hMr : M = r := le_antisymm (by rw [hMm]; exact hmr) hrM
      rw [hMr, hMm.symm.trans hMr]
      ring
    have hRG : R = G := by
      apply Fin.ext
      have hcast : ((R : ℕ) : ℚ) = ((G : ℕ) : ℚ) := by
        rw [hr_def, hg_def] at hrg
        field_simp at hrg
        exact_mod_cast hrg
      exact_mod_cast hcast
    have hRB : R = B := by
      apply Fin.ext
      have hcast : ((R : ℕ) : ℚ) = ((B : ℕ) : ℚ) := by
        rw [hr_def, hb_def] at hrb
        field_simp at hrb
        exact_mod_cast hrb
      exact_mod_cast hcast
    simp only [hslaToRgb]
    rw [if_pos (show (0:ℚ) < EPSILON by norm_num [EPSILON])]
    rw [hL, halpha, hr_def, channel_out R]
    simp only [RGBColor.mk.injEq]
    exact ⟨trivial, hRG, hRB, trivial⟩
  · rw [if_neg hgray]
    push_neg at hgray
    have hlt : m < M := by
      rcases hquant with h | h
      · exfalso
        rw [EPSILON] at hgray
        linarith
      · rw [EPSILON] at hgray
        linarith
    simp only [hslaToRgb]
    obtain ⟨hsat, hq, hp⟩ := sat_lum_reconstruct M m ((M + m) * 0.5)
      (if (M + m) * 0.5 < 0.5 then (M - m) / (M + m) else (M - m) / (2 - M - m))
      (if (M + m) * 0.5 < 0.5 then
        (M + m) * 0.5 *
          (1 + (if (M + m) * 0.5 < 0.5 then (M - m) / (M + m) else (M - m) / (2 - M - m)))
      else
        (M + m) * 0.5 +
            (if (M + m) * 0.5 < 0.5 then (M - m) / (M + m) else (M - m) / (2 - M - m)) -
          (M + m) * 0.5 *
            (if (M + m) * 0.5 < 0.5 then (M - m) / (M + m) else (M - m) / (2 - M - m)))
      hm0 hM1 hlt hgray rfl rfl rfl
    rw [if_neg (not_lt.mpr hsat)]
    obtain ⟨hred, hgreen, hblue⟩ := hue_reconstruct r g b M m
      (if M = r then (if g < b then (g - b) / (M - m) + 6 else (g - b) / (M - m))
        else if M = g then (b - r) / (M - m) + 2 else (r - g) / (M - m) + 4)
      hM_def hm_def hlt rfl
    have hdiv : ∀ v : ℚ, v * 60 / 360 = v / 6 := by
      intro v
      ring
    rw [hp, hq, hdiv]
    rw [hred, hgreen, hblue]
    rw [hr_def, hg_def, hb_def, channel_out R, channel_out G, channel_out B, halpha]

end Utils


/-! ## Claim theorems -/

open Utils ImageStatistics AdaptiveImageTree

/-- C9: `getPixel(x, y)` returns absent/null exactly when the coordinates are
out of range (`x ≥ W` or `y ≥ H`, which covers every access on an empty
grid), and otherwise returns the pixel stored at `(x, y)` (row-major index
`x + y·W`). -/
theorem getPixel_bounds_spec (png : PNG) (x y : ℕ) :
    (png.getPixel x y = none ↔ png.width ≤ x ∨ png.height ≤ y) ∧
      png.getPixel x y =
        (if x < png.width ∧ y < png.height
          then some (png.imageData (x + y * png.width)) else none) := by
  have hval : png.isValidCoordinate x y = true ↔ x < png.width ∧ y < png.height := by
    simp only [PNG.isValidCoordinate, PNG.isEmpty, Bool.and_eq_true, decide_eq_true_eq,
      Bool.not_eq_true', Bool.or_eq_false_iff, beq_eq_false_iff_ne]
    omega
  have heq : png.getPixel x y =
      (if x < png.width ∧ y < png.height
        then some (png.imageData (x + y * png.width)) else none) := by
    rw [PNG.getPixel]
    by_cases h : x < png.width ∧ y < png.height
    · rw [if_pos (hval.mpr h), if_pos h]
    · rw [if_neg (fun hh => h (hval.mp hh)), if_neg h]
  refine ⟨?_, heq⟩
  rw [heq]
  by_cases h : x < png.width ∧ y < png.height
  · rw [if_pos h]
    simp only [reduceCtorEq, false_iff]
    omega
  · rw [if_neg h]
    simp only [true_iff]
    omega

/-- C1 (counterexample): on the uniform 2×1 image (both pixels equal), the
built tree's root is *not* a leaf — `buildTreeRecursive` splits every region
larger than one pixel and performs no entropy-based early termination. -/
theorem buildTree_uniform_root_not_leaf :
    isLeafNode (buildAdaptiveTree ⟨2, 1, fun _ => ⟨0, 0, 1/2, 1⟩⟩) = false := by
  rw [buildAdaptiveTree, buildTreeRecursive, if_neg (by norm_num [Prod.ext_iff])]
  rfl

/-- C1 (amended): during tree construction the builder returns a leaf exactly
for single-pixel regions; a region larger than 1×1 is always split, whatever
its entropy (so for a uniform image of more than one pixel the root is
internal). -/
theorem buildTree_leaf_iff_single_pixel (image : PNG) (region : Rectangle) :
    isLeafNode (buildTreeRecursive image region) = true ↔
      region.upperLeft = region.lowerRight := by
  rw [buildTreeRecursive]
  split_ifs with h <;> simp [isLeafNode, h]

/-- C6: pruning is monotonic in the number of leaves: for every tree and
pruning configuration, the leaf count after `pruneTree` is at most the leaf
count before. -/
theorem pruneTree_leafCount_monotone (root : TreeNode) (config : PruningConfig) :
    countLeafNodesRecursive (pruneTree root config) ≤ countLeafNodesRecursive (some root) :=
  countLeafNodes_pruneNode_le (some root) config

/-- C3: for an internal node (with leaf areas positive, as for every
program-built tree), `shouldPruneSubtree` holds iff the total leaf area `T` of
the subtree is positive and the leaf area `K` within pruning color-distance
`colorToleranceThreshold` of the node's stored representative color satisfies
`K/T ≥ minimumSimilarityPercentage`; and when pruning fires (on the node with
already-pruned children) both children are dropped while the node's region and
representative color stay unchanged. -/
theorem shouldPrune_spec (reg : Rectangle) (c : HSLAReal) (l r : Option TreeNode)
    (config : PruningConfig) (hInternal : l ≠ none ∨ r ≠ none)
    (hpos : ∀ p ∈ leavesOf (some (.mk reg c l r)), 0 < ImageStatistics.getArea p.1) :
    (shouldPruneSubtree (some (.mk reg c l r)) config ↔
      0 < totalLeafArea (some (.mk reg c l r)) ∧
        config.minimumSimilarityPercentage ≤
          (similarLeafArea (some (.mk reg c l r)) c config.colorToleranceThreshold : ℝ) /
            (totalLeafArea (some (.mk reg c l r)) : ℝ)) ∧
    (shouldPruneSubtree (some (.mk reg c (pruneNodeRecursive l config)
          (pruneNodeRecursive r config))) config →
      pruneNodeRecursive (some (.mk reg c l r)) config = some (.mk reg c none none)) := by
  have hT : 0 < totalLeafArea (some (.mk reg c l r)) :=
    totalLeafArea_pos (.mk reg c l r) hpos
  constructor
  · rw [shouldPruneSubtree_node reg c l r config hInternal]
    constructor
    · rintro ⟨-, h2⟩
      exact ⟨hT, h2⟩
    · rintro ⟨-, h2⟩
      exact ⟨by omega, h2⟩
  · intro h
    rw [pruneNodeRecursive_node reg c l r config hInternal, if_pos h]

/-- C3 (witness): the specification evaluated on a concrete internal node with
two single-pixel leaf children. -/
theorem shouldPrune_spec_witness :
    ((some (TreeNode.mk ⟨(0,0),(0,0)⟩ ⟨0,0,0,1⟩ none none) ≠ (none : Option TreeNode) ∨
        some (TreeNode.mk ⟨(1,0),(1,0)⟩ ⟨0,0,0,1⟩ none none) ≠ (none : Option TreeNode)) ∧
      (∀ p ∈ leavesOf (some (.mk ⟨(0,0),(1,0)⟩ ⟨0,0,0,1⟩
          (some (TreeNode.mk ⟨(0,0),(0,0)⟩ ⟨0,0,0,1⟩ none none))
          (some (TreeNode.mk ⟨(1,0),(1,0)⟩ ⟨0,0,0,1⟩ none none)))),
        0 < ImageStatistics.getArea p.1)) ∧
    ((shouldPruneSubtree (some (.mk ⟨(0,0),(1,0)⟩ ⟨0,0,0,1⟩
          (some (TreeNode.mk ⟨(0,0),(0,0)⟩ ⟨0,0,0,1⟩ none none))
          (some (TreeNode.mk ⟨(1,0),(1,0)⟩ ⟨0,0,0,1⟩ none none)))) ⟨1, 1⟩ ↔
        0 < totalLeafArea (some (.mk ⟨(0,0),(1,0)⟩ ⟨0,0,0,1⟩
          (some (TreeNode.mk ⟨(0,0),(0,0)⟩ ⟨0,0,0,1⟩ none none))
          (some (TreeNode.mk ⟨(1,0),(1,0)⟩ ⟨0,0,0,1⟩ none none)))) ∧
          (PruningConfig.mk 1 1).minimumSimilarityPercentage ≤
            (similarLeafArea (some (.mk ⟨(0,0),(1,0)⟩ ⟨0,0,0,1⟩
              (some (TreeNode.mk ⟨(0,0),(0,0)⟩ ⟨0,0,0,1⟩ none none))
              (some (TreeNode.mk ⟨(1,0),(1,0)⟩ ⟨0,0,0,1⟩ none none)))) ⟨0,0,0,1⟩
                (PruningConfig.mk 1 1).colorToleranceThreshold : ℝ) /
              (totalLeafArea (some (.mk ⟨(0,0),(1,0)⟩ ⟨0,0,0,1⟩
                (some (TreeNode.mk ⟨(0,0),(0,0)⟩ ⟨0,0,0,1⟩ none none))
                (some (TreeNode.mk ⟨(1,0),(1,0)⟩ ⟨0,0,0,1⟩ none none)))) : ℝ)) ∧
      (shouldPruneSubtree (some (.mk ⟨(0,0),(1,0)⟩ ⟨0,0,0,1⟩
            (pruneNodeRecursive (some (TreeNode.mk ⟨(0,0),(0,0)⟩ ⟨0,0,0,1⟩ none none)) ⟨1, 1⟩)
            (pruneNodeRecursive (some (TreeNode.mk ⟨(1,0),(1,0)⟩ ⟨0,0,0,1⟩ none none)) ⟨1, 1⟩)))
          ⟨1, 1⟩ →
        pruneNodeRecursive (some (.mk ⟨(0,0),(1,0)⟩ ⟨0,0,0,1⟩
            (some (TreeNode.mk ⟨(0,0),(0,0)⟩ ⟨0,0,0,1⟩ none none))
            (some (TreeNode.mk ⟨(1,0),(1,0)⟩ ⟨0,0,0,1⟩ none none)))) ⟨1, 1⟩ =
          some (.mk ⟨(0,0),(1,0)⟩ ⟨0,0,0,1⟩ none none))) :=
  ⟨⟨Or.inl (by simp), by
      intro p hp
      simp only [leavesOf, List.mem_append, List.mem_singleton] at hp
      rcases hp with rfl | rfl <;> norm_num [ImageStatistics.getArea]⟩,
    shouldPrune_spec ⟨(0,0),(1,0)⟩ ⟨0,0,0,1⟩ _ _ ⟨1, 1⟩ (Or.inl (by simp)) (by
      intro p hp
      simp only [leavesOf, List.mem_append, List.mem_singleton] at hp
      rcases hp with rfl | rfl <;> norm_num [ImageStatistics.getArea])⟩

/-- C4: for every region with more than one pixel, `findOptimalSplit` returns
the candidate cut (a pair of disjoint child rectangles partitioning the
region) that minimizes the weighted child entropy
`W = (E₁·A₁ + E₂·A₂)/A_total` over the examined cuts, ties broken in favor of
the first cut encountered — the examination order being horizontal cuts by
ascending `splitY` followed by vertical cuts by ascending `splitX`; when the
region's width is 1 only horizontal cuts are examined, and when its height is
1 only vertical cuts. -/
theorem findOptimalSplit_spec (image : PNG) (region : Rectangle)
    (hwf : region.upperLeft.1 ≤ region.lowerRight.1 ∧
      region.upperLeft.2 ≤ region.lowerRight.2)
    (hne : region.upperLeft ≠ region.lowerRight) :
    (∃ i c, (splitCandidates region).get? i = some c ∧
      findOptimalSplit image region = c ∧
      (∀ j cj, (splitCandidates region).get? j = some cj →
        weightedEntropy image region c ≤ weightedEntropy image region cj) ∧
      (∀ j cj, j < i → (splitCandidates region).get? j = some cj →
        weightedEntropy image region c < weightedEntropy image region cj)) ∧
    (∀ c ∈ splitCandidates region,
      Disjoint (rectPoints c.1) (rectPoints c.2) ∧
        rectPoints c.1 ∪ rectPoints c.2 = rectPoints region) ∧
    (regionWidth region = 1 → splitCandidates region = horizontalCandidates region) ∧
    (regionHeight region = 1 → splitCandidates region = verticalCandidates region) := by
  have hcomp : ¬(region.upperLeft.1 = region.lowerRight.1 ∧
      region.upperLeft.2 = region.lowerRight.2) := by
    rintro ⟨e1, e2⟩
    exact hne (Prod.ext e1 e2)
  have hnil := splitCandidates_ne_nil hwf hne
  obtain ⟨c0, hc0⟩ := List.exists_mem_of_ne_nil _ hnil
  have hex : ∃ c ∈ splitCandidates region,
      ((weightedEntropy image region c : ℝ) : EReal) < ⊤ :=
    ⟨c0, hc0, EReal.coe_lt_top _⟩
  obtain ⟨i, c, hget, hfold, -, hmin, hstrict⟩ :=
    foldl_best_firstmin (weightedEntropy image region) (splitCandidates region) ⊤ dummySplit hex
  refine ⟨⟨i, c, hget, ?_, hmin, hstrict⟩,
    fun c hc => splitCandidates_partition hc, ?_, ?_⟩
  · rw [findOptimalSplit, hfold]
  · intro hw
    have hh : 1 < regionHeight region := by
      simp only [regionWidth] at hw
      simp only [regionHeight]
      omega
    rw [splitCandidates, if_pos hh, if_neg (by
      simp only [regionWidth] at hw ⊢
      omega), List.append_nil]
  · intro hh
    have hw : 1 < regionWidth region := by
      simp only [regionHeight] at hh
      simp only [regionWidth]
      omega
    rw [splitCandidates, if_pos hw, if_neg (by
      simp only [regionHeight] at hh ⊢
      omega), List.nil_append]

/-- C4 (witness): the split-search specification evaluated on the 2×1 region
`(0,0)-(1,0)` of a concrete image. -/
theorem findOptimalSplit_spec_witness :
    (((⟨(0,0),(1,0)⟩ : Rectangle).upperLeft.1 ≤ (⟨(0,0),(1,0)⟩ : Rectangle).lowerRight.1 ∧
        (⟨(0,0),(1,0)⟩ : Rectangle).upperLeft.2 ≤ (⟨(0,0),(1,0)⟩ : Rectangle).lowerRight.2) ∧
      (⟨(0,0),(1,0)⟩ : Rectangle).upperLeft ≠ (⟨(0,0),(1,0)⟩ : Rectangle).lowerRight) ∧
    ((∃ i c, (splitCandidates ⟨(0,0),(1,0)⟩).get? i = some c ∧
      findOptimalSplit ⟨2, 1, fun _ => ⟨0, 0, 1/2, 1⟩⟩ ⟨(0,0),(1,0)⟩ = c ∧
      (∀ j cj, (splitCandidates ⟨(0,0),(1,0)⟩).get? j = some cj →
        weightedEntropy ⟨2, 1, fun _ => ⟨0, 0, 1/2, 1⟩⟩ ⟨(0,0),(1,0)⟩ c ≤
          weightedEntropy ⟨2, 1, fun _ => ⟨0, 0, 1/2, 1⟩⟩ ⟨(0,0),(1,0)⟩ cj) ∧
      (∀ j cj, j < i → (splitCandidates ⟨(0,0),(1,0)⟩).get? j = some cj →
        weightedEntropy ⟨2, 1, fun _ => ⟨0, 0, 1/2, 1⟩⟩ ⟨(0,0),(1,0)⟩ c <
          weightedEntropy ⟨2, 1, fun _ => ⟨0, 0, 1/2, 1⟩⟩ ⟨(0,0),(1,0)⟩ cj)) ∧
    (∀ c ∈ splitCandidates ⟨(0,0),(1,0)⟩,
      Disjoint (rectPoints c.1) (rectPoints c.2) ∧
        rectPoints c.1 ∪ rectPoints c.2 = rectPoints ⟨(0,0),(1,0)⟩) ∧
    (regionWidth ⟨(0,0),(1,0)⟩ = 1 →
      splitCandidates ⟨(0,0),(1,0)⟩ = horizontalCandidates ⟨(0,0),(1,0)⟩) ∧
    (regionHeight ⟨(0,0),(1,0)⟩ = 1 →
      splitCandidates ⟨(0,0),(1,0)⟩ = verticalCandidates ⟨(0,0),(1,0)⟩)) :=
  ⟨⟨⟨by decide, by decide⟩, by decide⟩,
    findOptimalSplit_spec ⟨2, 1, fun _ => ⟨0, 0, 1/2, 1⟩⟩ ⟨(0,0),(1,0)⟩
      ⟨by decide, by decide⟩ (by decide)⟩

/-- C5: for a nonempty image, the leaf rectangles of the built tree are
pairwise disjoint and their union is exactly the full image rectangle, of
total area `W·H`; every split node's children partition the node's rectangle
(`subtreeTiled`); and all of this is preserved by any prune call. -/
theorem buildTree_tiling_spec (image : PNG) (hW : 0 < image.width) (hH : 0 < image.height)
    (config : PruningConfig) :
    (((leavesOf (some (buildAdaptiveTree image))).Pairwise fun p q =>
        Disjoint (rectPoints p.1) (rectPoints q.1)) ∧
      leafPtsUnion (some (buildAdaptiveTree image)) =
        rectPoints ⟨(0, 0), ((image.width : ℤ) - 1, (image.height : ℤ) - 1)⟩ ∧
      ((leavesOf (some (buildAdaptiveTree image))).map fun p => (rectPoints p.1).card).sum =
        image.width * image.height ∧
      subtreeTiled (some (buildAdaptiveTree image))) ∧
    (((leavesOf (pruneTree (buildAdaptiveTree image) config)).Pairwise fun p q =>
        Disjoint (rectPoints p.1) (rectPoints q.1)) ∧
      leafPtsUnion (pruneTree (buildAdaptiveTree image) config) =
        rectPoints ⟨(0, 0), ((image.width : ℤ) - 1, (image.height : ℤ) - 1)⟩ ∧
      ((leavesOf (pruneTree (buildAdaptiveTree image) config)).map
          fun p => (rectPoints p.1).card).sum = image.width * image.height ∧
      subtreeTiled (pruneTree (buildAdaptiveTree image) config)) := by
  have hwf : wfRect ⟨(0, 0), ((image.width : ℤ) - 1, (image.height : ℤ) - 1)⟩ := by
    constructor <;> simp <;> omega
  have htiled : subtreeTiled (some (buildAdaptiveTree image)) :=
    buildTreeRecursive_tiled image _ hwf
  have hopt : optPts (some (buildAdaptiveTree image)) =
      rectPoints ⟨(0, 0), ((image.width : ℤ) - 1, (image.height : ℤ) - 1)⟩ := by
    simp [optPts, buildAdaptiveTree, buildTreeRecursive_region]
  have hprune : pruneTree (buildAdaptiveTree image) config =
      pruneNodeRecursive (some (buildAdaptiveTree image)) config := rfl
  have htiled' : subtreeTiled (pruneTree (buildAdaptiveTree image) config) := by
    rw [hprune]
    exact subtreeTiled_prune _ config htiled
  have hopt' : optPts (pruneTree (buildAdaptiveTree image) config) =
      rectPoints ⟨(0, 0), ((image.width : ℤ) - 1, (image.height : ℤ) - 1)⟩ := by
    rw [hprune, optPts_prune _ config, hopt]
  refine ⟨⟨leaves_pairwise_disjoint _ htiled, ?_, ?_, htiled⟩,
    leaves_pairwise_disjoint _ htiled', ?_, ?_, htiled'⟩
  · rw [leafPtsUnion_eq_optPts _ htiled, hopt]
  · rw [leaves_card_sum _ htiled, hopt, card_rectPoints_full]
  · rw [leafPtsUnion_eq_optPts _ htiled', hopt']
  · rw [leaves_card_sum _ htiled', hopt', card_rectPoints_full]

/-- C5 (witness): the tiling specification evaluated on a concrete 1×1 image. -/
theorem buildTree_tiling_spec_witness :
    (0 < (PNG.mk 1 1 fun _ => ⟨0, 0, 1, 1⟩).width ∧
      0 < (PNG.mk 1 1 fun _ => ⟨0, 0, 1, 1⟩).height) ∧
    ((((leavesOf (some (buildAdaptiveTree ⟨1, 1, fun _ => ⟨0, 0, 1, 1⟩⟩))).Pairwise fun p q =>
        Disjoint (rectPoints p.1) (rectPoints q.1)) ∧
      leafPtsUnion (some (buildAdaptiveTree ⟨1, 1, fun _ => ⟨0, 0, 1, 1⟩⟩)) =
        rectPoints ⟨(0, 0), (((1:ℕ) : ℤ) - 1, ((1:ℕ) : ℤ) - 1)⟩ ∧
      ((leavesOf (some (buildAdaptiveTree ⟨1, 1, fun _ => ⟨0, 0, 1, 1⟩⟩))).map
          fun p => (rectPoints p.1).card).sum = 1 * 1 ∧
      subtreeTiled (some (buildAdaptiveTree ⟨1, 1, fun _ => ⟨0, 0, 1, 1⟩⟩))) ∧
    (((leavesOf (pruneTree (buildAdaptiveTree ⟨1, 1, fun _ => ⟨0, 0, 1, 1⟩⟩) ⟨1, 1⟩)).Pairwise
        fun p q => Disjoint (rectPoints p.1) (rectPoints q.1)) ∧
      leafPtsUnion (pruneTree (buildAdaptiveTree ⟨1, 1, fun _ => ⟨0, 0, 1, 1⟩⟩) ⟨1, 1⟩) =
        rectPoints ⟨(0, 0), (((1:ℕ) : ℤ) - 1, ((1:ℕ) : ℤ) - 1)⟩ ∧
      ((leavesOf (pruneTree (buildAdaptiveTree ⟨1, 1, fun _ => ⟨0, 0, 1, 1⟩⟩) ⟨1, 1⟩)).map
          fun p => (rectPoints p.1).card).sum = 1 * 1 ∧
      subtreeTiled (pruneTree (buildAdaptiveTree ⟨1, 1, fun _ => ⟨0, 0, 1, 1⟩⟩) ⟨1, 1⟩))) :=
  ⟨⟨Nat.one_pos, Nat.one_pos⟩,
    buildTree_tiling_spec ⟨1, 1, fun _ => ⟨0, 0, 1, 1⟩⟩ Nat.one_pos Nat.one_pos ⟨1, 1⟩⟩

/-- C2: for every image (with hues in range, `h ≥ 0`) and every valid
rectangle, the flat-array `buildHueHistogram` equals the naive direct count —
bin `b` holds the number of pixels of the rectangle whose hue satisfies
`min(⌊h/10⌋, 35) = b` — and the bins sum to `getArea`, the number of pixels of
the rectangle. -/
theorem buildHueHistogram_spec (image : PNG) (region : Rectangle)
    (hval : isValidRectangle image region)
    (hhue : ∀ x y : ℕ, 0 ≤ (pixelAt image x y).hue) :
    buildHueHistogram image region =
      List.ofFn (fun b : Fin 36 => (directBinCount image region ((b : ℕ) : ℤ) : ℤ)) ∧
    (buildHueHistogram image region).sum = getArea region := by
  constructor
  · rw [buildHueHistogram]
    exact congrArg List.ofFn (funext fun b =>
      buildHueHistogramEntry_eq_directBinCount image region hval hhue ((b : ℕ) : ℤ))
  · exact sum_buildHueHistogram_eq_area image region hval hhue

/-- C2 (witness): the histogram specification evaluated on a concrete 2×1
image of hue-15 pixels, over its full rectangle. -/
theorem buildHueHistogram_spec_witness :
    (isValidRectangle ⟨2, 1, fun _ => ⟨15, 1, 1/2, 1⟩⟩ ⟨(0, 0), (1, 0)⟩ ∧
      (∀ x y : ℕ, 0 ≤ (pixelAt ⟨2, 1, fun _ => ⟨15, 1, 1/2, 1⟩⟩ x y).hue)) ∧
    (buildHueHistogram ⟨2, 1, fun _ => ⟨15, 1, 1/2, 1⟩⟩ ⟨(0, 0), (1, 0)⟩ =
        List.ofFn (fun b : Fin 36 =>
          (directBinCount ⟨2, 1, fun _ => ⟨15, 1, 1/2, 1⟩⟩ ⟨(0, 0), (1, 0)⟩ ((b : ℕ) : ℤ) : ℤ)) ∧
      (buildHueHistogram ⟨2, 1, fun _ => ⟨15, 1, 1/2, 1⟩⟩ ⟨(0, 0), (1, 0)⟩).sum =
        getArea ⟨(0, 0), (1, 0)⟩) :=
  ⟨⟨by norm_num [isValidRectangle], fun x y => by norm_num [pixelAt]⟩,
    buildHueHistogram_spec ⟨2, 1, fun _ => ⟨15, 1, 1/2, 1⟩⟩ ⟨(0, 0), (1, 0)⟩
      (by norm_num [isValidRectangle]) (fun x y => by norm_num [pixelAt])⟩

/-- C7: the scalar quality-to-parameters mapping yields `(0.85, 0.30)` at
quality 0 and `(0.995, 0.005)` at quality 1; over `[0,1]` the similarity
component is non-decreasing and the tolerance component non-increasing; and
on `[0,1]` the components equal `0.85 + 0.145·q^1.5` and
`max(0.005, 0.30·(1-q)²)` (the quality score is clamped to `[0,1]` first). -/
theorem getConfigForQuality_spec (q1 q2 : ℝ) (h0 : 0 ≤ q1) (h12 : q1 ≤ q2) (h1 : q2 ≤ 1) :
    ImageCompressor.getConfigForQuality 0 = ⟨0.85, 0.30⟩ ∧
    ImageCompressor.getConfigForQuality 1 = ⟨0.995, 0.005⟩ ∧
    (ImageCompressor.getConfigForQuality q1).minimumSimilarityPercentage ≤
      (ImageCompressor.getConfigForQuality q2).minimumSimilarityPercentage ∧
    (ImageCompressor.getConfigForQuality q2).colorToleranceThreshold ≤
      (ImageCompressor.getConfigForQuality q1).colorToleranceThreshold ∧
    (∀ q : ℝ, 0 ≤ q → q ≤ 1 → ImageCompressor.getConfigForQuality q =
      ⟨0.85 + 0.145 * q ^ (1.5 : ℝ), max 0.005 (0.30 * (1 - q) ^ (2.0 : ℝ))⟩) := by
  have hclamp : ∀ q : ℝ, 0 ≤ q → q ≤ 1 → max 0 (min 1 q) = q := by
    intro q hq0 hq1
    rw [min_eq_right hq1, max_eq_right hq0]
  have hq1' : q1 ≤ 1 := le_trans h12 h1
  have hq2' : 0 ≤ q2 := le_trans h0 h12
  refine ⟨?_, ?_, ?_, ?_, ?_⟩
  · simp only [ImageCompressor.getConfigForQuality]
    rw [hclamp 0 le_rfl (by norm_num)]
    rw [Real.zero_rpow (by norm_num)]
    norm_num [Real.one_rpow]
  · simp only [ImageCompressor.getConfigForQuality]
    rw [hclamp 1 (by norm_num) le_rfl]
    rw [Real.one_rpow]
    norm_num [Real.zero_rpow]
  · simp only [ImageCompressor.getConfigForQuality]
    rw [hclamp q1 h0 hq1', hclamp q2 hq2' h1]
    have := Real.rpow_le_rpow h0 h12 (by norm_num : (0:ℝ) ≤ 1.5)
    nlinarith
  · simp only [ImageCompressor.getConfigForQuality]
    rw [hclamp q1 h0 hq1', hclamp q2 hq2' h1]
    have h2 : (1 - q2) ^ (2.0 : ℝ) ≤ (1 - q1) ^ (2.0 : ℝ) :=
      Real.rpow_le_rpow (by linarith) (by linarith) (by norm_num)
    exact max_le_max (by nlinarith) le_rfl
  · intro q hq0 hq1
    simp only [ImageCompressor.getConfigForQuality]
    rw [hclamp q hq0 hq1, max_comm]

/-- C7 (witness): the quality-to-parameters specification evaluated at the
concrete pair `q1 = 0`, `q2 = 1`. -/
theorem getConfigForQuality_spec_witness :
    ((0:ℝ) ≤ 0 ∧ (0:ℝ) ≤ 1 ∧ (1:ℝ) ≤ 1) ∧
    (ImageCompressor.getConfigForQuality 0 = ⟨0.85, 0.30⟩ ∧
      ImageCompressor.getConfigForQuality 1 = ⟨0.995, 0.005⟩ ∧
      (ImageCompressor.getConfigForQuality 0).minimumSimilarityPercentage ≤
        (ImageCompressor.getConfigForQuality 1).minimumSimilarityPercentage ∧
      (ImageCompressor.getConfigForQuality 1).colorToleranceThreshold ≤
        (ImageCompressor.getConfigForQuality 0).colorToleranceThreshold ∧
      (∀ q : ℝ, 0 ≤ q → q ≤ 1 → ImageCompressor.getConfigForQuality q =
        ⟨0.85 + 0.145 * q ^ (1.5 : ℝ), max 0.005 (0.30 * (1 - q) ^ (2.0 : ℝ))⟩)) :=
  ⟨⟨le_rfl, by norm_num, le_rfl⟩,
    getConfigForQuality_spec 0 1 le_rfl (by norm_num) le_rfl⟩

/-- C10: for every image whose pixel hues are in range (`hue ≥ 0`) and every
rectangle, the flat-array `ImageStatistics` and the nested-vector variant
produce the same 36-bin hue histogram, and therefore the same entropy: the
trigonometric-lookup truncation of the flat file touches only the average-color
sums, not the hue binning. -/
theorem nested_statistics_refines_flat (image : PNG) (region : Rectangle)
    (hhue : ∀ x y : ℕ, 0 ≤ (ImageStatistics.pixelAt image x y).hue) :
    ImageStatistics.buildHueHistogramNested image region =
      ImageStatistics.buildHueHistogram image region ∧
    ImageStatistics.calculateEntropyNested image region =
      ImageStatistics.calculateEntropy image region := by
  have h := ImageStatistics.buildHueHistogramNested_eq_flat image region hhue
  refine ⟨h, ?_⟩
  rw [ImageStatistics.calculateEntropyNested, ImageStatistics.calculateEntropy, h]

/-- C10 (witness): the refinement evaluated on a concrete 2×1 image of hue-15
pixels, over its full rectangle. -/
theorem nested_statistics_refines_flat_witness :
    (∀ x y : ℕ, 0 ≤ (ImageStatistics.pixelAt ⟨2, 1, fun _ => ⟨15, 1, 1/2, 1⟩⟩ x y).hue) ∧
    (ImageStatistics.buildHueHistogramNested ⟨2, 1, fun _ => ⟨15, 1, 1/2, 1⟩⟩ ⟨(0, 0), (1, 0)⟩ =
        ImageStatistics.buildHueHistogram ⟨2, 1, fun _ => ⟨15, 1, 1/2, 1⟩⟩ ⟨(0, 0), (1, 0)⟩ ∧
      ImageStatistics.calculateEntropyNested ⟨2, 1, fun _ => ⟨15, 1, 1/2, 1⟩⟩ ⟨(0, 0), (1, 0)⟩ =
        ImageStatistics.calculateEntropy ⟨2, 1, fun _ => ⟨15, 1, 1/2, 1⟩⟩ ⟨(0, 0), (1, 0)⟩) :=
  ⟨fun x y => by norm_num [ImageStatistics.pixelAt],
    nested_statistics_refines_flat ⟨2, 1, fun _ => ⟨15, 1, 1/2, 1⟩⟩ ⟨(0, 0), (1, 0)⟩
      (fun x y => by norm_num [ImageStatistics.pixelAt])⟩

/-- C8: for every RGBA pixel, converting to HSLA and back
(`hslaToRgb (rgbToHsla p)`) yields a pixel whose red, green, blue and alpha
channels each differ from those of `p` by at most 1 — in fact over the exact
rational arithmetic of the embedding the round trip reproduces the pixel
exactly. -/
theorem rgb_hsla_roundtrip_spec (p : RGBColor) :
    hslaToRgb (rgbToHsla p) = p ∧
    ((((hslaToRgb (rgbToHsla p)).red : ℕ) : ℤ) - ((p.red : ℕ) : ℤ)).natAbs ≤ 1 ∧
    ((((hslaToRgb (rgbToHsla p)).green : ℕ) : ℤ) - ((p.green : ℕ) : ℤ)).natAbs ≤ 1 ∧
    ((((hslaToRgb (rgbToHsla p)).blue : ℕ) : ℤ) - ((p.blue : ℕ) : ℤ)).natAbs ≤ 1 ∧
    ((((hslaToRgb (rgbToHsla p)).alpha : ℕ) : ℤ) - ((p.alpha : ℕ) : ℤ)).natAbs ≤ 1 := by
  have h := Utils.hslaToRgb_rgbToHsla p
  rw [h]
  simp

end ImageCompression
